import Mathlib

/-!
Verification of the WeKnora Milvus retrieval repository: the filter-expression
compiler, the dimension-sharded collection manager, the write/delete/retrieve
paths, the cross-base copier and the storage estimator, shallowly embedded from
the Go sources (`internal/application/repository/retriever/milvus`).
-/

namespace WeKnora

/-!  Facts about the decimal rendering `Nat.repr`, needed to reason about
generated filter parameter names of the form `<field>_<counter>`. -/

/-- Decimal digit characters of `n`, most significant first; mirrors the
result of `Nat.toDigitsCore 10`. -/
def digitsList (n : Nat) : List Char :=
  if n / 10 = 0 then [Nat.digitChar (n % 10)]
  else digitsList (n / 10) ++ [Nat.digitChar (n % 10)]
termination_by n
decreasing_by
  exact Nat.div_lt_self (by omega) (by omega)

theorem toDigitsCore_eq_digitsList (fuel : Nat) :
    ∀ (n : Nat) (acc : List Char), n < fuel →
    Nat.toDigitsCore 10 fuel n acc = digitsList n ++ acc := by
  induction fuel with
  | zero => intro n acc h; omega
  | succ fuel ih =>
    intro n acc h
    rw [Nat.toDigitsCore, digitsList]
    by_cases hz : n / 10 = 0
    · simp [hz]
    · simp only [hz, if_false]
      have hlt : n / 10 < fuel := by
        have h1 : n / 10 < n := Nat.div_lt_self (by omega) (by omega)
        omega
      rw [ih (n / 10) (Nat.digitChar (n % 10) :: acc) hlt]
      simp

theorem repr_eq_digitsList (n : Nat) : Nat.repr n = (digitsList n).asString := by
  show (Nat.toDigits 10 n).asString = _
  rw [Nat.toDigits, toDigitsCore_eq_digitsList (n + 1) n [] (Nat.lt_succ_self n)]
  simp

/-- Decode a most-significant-first list of decimal digit characters. -/
def decodeDigits (l : List Char) : Nat :=
  l.foldl (fun a c => a * 10 + (c.toNat - '0'.toNat)) 0

theorem digitChar_decode (d : Nat) (h : d < 10) :
    (Nat.digitChar d).toNat - '0'.toNat = d := by
  interval_cases d <;> rfl

theorem digitChar_isDigit (d : Nat) (h : d < 10) : (Nat.digitChar d).isDigit = true := by
  interval_cases d <;> rfl

theorem decodeDigits_append_singleton (l : List Char) (c : Char) :
    decodeDigits (l ++ [c]) = decodeDigits l * 10 + (c.toNat - '0'.toNat) := by
  simp [decodeDigits, List.foldl_append]

theorem decodeDigits_digitsList (n : Nat) : decodeDigits (digitsList n) = n := by
  induction n using Nat.strong_induction_on with
  | _ n ih =>
    rw [digitsList]
    by_cases hz : n / 10 = 0
    · have hn : n < 10 := by omega
      simp only [hz, if_true]
      show 0 * 10 + ((Nat.digitChar (n % 10)).toNat - '0'.toNat) = n
      rw [digitChar_decode (n % 10) (Nat.mod_lt n (by omega))]
      omega
    · simp only [hz, if_false]
      rw [decodeDigits_append_singleton,
        ih (n / 10) (Nat.div_lt_self (by omega) (by omega)),
        digitChar_decode (n % 10) (Nat.mod_lt n (by omega))]
      omega

theorem digitsList_isDigit (n : Nat) : ∀ c ∈ digitsList n, c.isDigit = true := by
  induction n using Nat.strong_induction_on with
  | _ n ih =>
    rw [digitsList]
    by_cases hz : n / 10 = 0
    · simp only [hz, if_true, List.mem_singleton]
      rintro c rfl
      exact digitChar_isDigit (n % 10) (Nat.mod_lt n (by omega))
    · simp only [hz, if_false, List.mem_append, List.mem_singleton]
      rintro c (hc | rfl)
      · exact ih (n / 10) (Nat.div_lt_self (by omega) (by omega)) c hc
      · exact digitChar_isDigit (n % 10) (Nat.mod_lt n (by omega))

theorem repr_data_eq (n : Nat) : (Nat.repr n).data = digitsList n := by
  rw [repr_eq_digitsList]
  rfl

theorem repr_injective : Function.Injective Nat.repr := by
  intro a b h
  have hd : digitsList a = digitsList b := by
    have := congrArg String.data h
    rwa [repr_data_eq, repr_data_eq] at this
  have := congrArg decodeDigits hd
  rwa [decodeDigits_digitsList, decodeDigits_digitsList] at this

theorem repr_isDigit (n : Nat) : ∀ c ∈ (Nat.repr n).data, c.isDigit = true := by
  rw [repr_data_eq]; exact digitsList_isDigit n

/-- Two lists that agree after an underscore-free digit suffix placed behind a
literal underscore must have equal suffixes. -/
theorem digit_suffix_eq : ∀ (d e : List Char), (∀ c ∈ d, c.isDigit = true) →
    (∀ c ∈ e, c.isDigit = true) →
    ∀ (a b : List Char), d ++ '_' :: a = e ++ '_' :: b → d = e := by
  intro d
  induction d with
  | nil =>
    intro e _ he a b h
    cases e with
    | nil => rfl
    | cons c t =>
      simp only [List.nil_append, List.cons_append, List.cons.injEq] at h
      obtain ⟨h1, _⟩ := h
      have h2 := he c (List.mem_cons_self c t)
      rw [← h1] at h2
      exact absurd h2 (by decide)
  | cons c t ih =>
    intro e hd he a b h
    cases e with
    | nil =>
      simp only [List.nil_append, List.cons_append, List.cons.injEq] at h
      obtain ⟨h1, _⟩ := h
      have h2 := hd c (List.mem_cons_self c t)
      rw [h1] at h2
      exact absurd h2 (by decide)
    | cons c2 t2 =>
      simp only [List.cons_append, List.cons.injEq] at h
      obtain ⟨rfl, h2⟩ := h
      have := ih t2 (fun x hx => hd x (List.mem_cons_of_mem c hx))
        (fun x hx => he x (List.mem_cons_of_mem c hx)) a b h2
      rw [this]

/-!  The filter-expression compiler, embedded from
`internal/application/repository/retriever/milvus/filter.go`. -/

mutual
/-- `universalFilterCondition`: a field, an operator, and a dynamically typed
value (`none` models Go `nil`). -/
inductive UniversalFilterCondition : Type where
  | mk (field : String) (operator : String) (value : Option FilterValue)

/-- The dynamic (`any`) value carried by a condition: a scalar, a slice of
scalars, a slice of sub-conditions, or a single sub-condition. -/
inductive FilterValue : Type where
  | scalar (s : String)
  | slist (l : List String)
  | conds (l : CondList)
  | cond (c : UniversalFilterCondition)

/-- A Go slice of `*universalFilterCondition`. -/
inductive CondList : Type where
  | nil
  | cons (head : UniversalFilterCondition) (tail : CondList)
end

def CondList.length : CondList → Nat
  | .nil => 0
  | .cons _ t => 1 + t.length

/-- The `comparisonOperators` lookup table. -/
def comparisonOperators (op : String) : Option String :=
  if op = "eq" then some "==" else
  if op = "ne" then some "!=" else
  if op = "gt" then some ">" else
  if op = "gte" then some ">=" else
  if op = "lt" then some "<" else
  if op = "lte" then some "<=" else
  if op = "like" then some "like" else
  if op = "not like" then some "not like" else
  none

/-- A `convertResult`: the expression string and the named-parameter map,
rendered as an association list in binding order. -/
structure ConvertResult where
  exprStr : String
  params : List (String × FilterValue)

/-- `strings.ReplaceAll(s, ".", "_")`: for a single-character pattern this is a
character map. -/
def replaceDots (s : String) : String :=
  ⟨s.data.map (fun ch => if ch = '.' then '_' else ch)⟩

/-- `strings.ToLower`, a character map (the operators handled here are ASCII). -/
def strToLower (s : String) : String :=
  ⟨s.data.map Char.toLower⟩

/-- `convertParamName`: replace `.` with `_` in the field, increment the shared
counter, and suffix its new value. -/
def convertParamName (field : String) (counter : Nat) : String × Nat :=
  (replaceDots field ++ "_" ++ Nat.repr (counter + 1), counter + 1)

/-- Insertion into the parameter map with Go-map semantics (overwrite on an
existing key, append otherwise). -/
def mapInsert (m : List (String × FilterValue)) (k : String) (v : FilterValue) :
    List (String × FilterValue) :=
  if m.any (fun p => p.1 = k) then m.map (fun p => if p.1 = k then (k, v) else p)
  else m ++ [(k, v)]

/-- `maps.Copy(dst, src)`: every entry of `src` is written into `dst`. -/
def mapCopy (dst src : List (String × FilterValue)) : List (String × FilterValue) :=
  src.foldl (fun d p => mapInsert d p.1 p.2) dst

/-- `convertComparisonCondition`. -/
def convertComparisonCondition (field op : String) (value : Option FilterValue)
    (counter : Nat) : Except String (ConvertResult × Nat) :=
  if field = "" then .error "milvus filter condition is nil"
  else match value with
  | none => .error "milvus filter condition is nil"
  | some v =>
    match comparisonOperators op with
    | none => .error ("unsupported comparison operator: " ++ op)
    | some sym =>
      let (paramName, c) := convertParamName field counter
      .ok (⟨field ++ " " ++ sym ++ " \x7b" ++ paramName ++ "\x7d", [(paramName, v)]⟩, c)

/-- `convertInCondition`: the value must be a slice (of scalars or of
sub-conditions) with at least one element. -/
def convertInCondition (field op : String) (value : Option FilterValue)
    (counter : Nat) : Except String (ConvertResult × Nat) :=
  if field = "" then .error "milvus filter condition is nil"
  else match value with
  | none => .error "milvus filter condition is nil"
  | some v =>
    let sliceLen : Option Nat := match v with
      | .slist l => some l.length
      | .conds l => some l.length
      | _ => none
    match sliceLen with
    | none => .error "in operator value must be a slice with at least one value"
    | some n =>
      if n ≤ 0 then .error "in operator value must be a slice with at least one value"
      else
        let (paramName, c) := convertParamName field counter
        .ok (⟨field ++ " " ++ strToLower op ++ " \x7b" ++ paramName ++ "\x7d",
          [(paramName, v)]⟩, c)

/-- `convertBetweenCondition`: the value must be a slice with exactly two
elements; two parameters `<base>_0` and `<base>_1` are emitted. -/
def convertBetweenCondition (field : String) (value : Option FilterValue)
    (counter : Nat) : Except String (ConvertResult × Nat) :=
  if field = "" then .error "milvus filter condition is nil"
  else match value with
  | none => .error "milvus filter condition is nil"
  | some v =>
    let pair : Option (FilterValue × FilterValue) := match v with
      | .slist [a, b] => some (.scalar a, .scalar b)
      | .conds (.cons a (.cons b .nil)) => some (.cond a, .cond b)
      | _ => none
    match pair with
    | none => .error "between operator value must be a slice with two elements"
    | some (v1, v2) =>
      let (paramBase, c) := convertParamName field counter
      let paramName1 := paramBase ++ "_0"
      let paramName2 := paramBase ++ "_1"
      .ok (⟨field ++ " >= \x7b" ++ paramName1 ++ "\x7d and " ++ field ++
          " <= \x7b" ++ paramName2 ++ "\x7d",
        [(paramName1, v1), (paramName2, v2)]⟩, c)

def isComparisonOperatorName (op : String) : Bool :=
  op = "eq" || op = "ne" || op = "gt" || op = "gte" || op = "lt" || op = "lte" ||
  op = "like" || op = "not like"

mutual
/-- `convertCondition`: dispatch on the operator, threading the shared counter. -/
def convertCondition : UniversalFilterCondition → Nat → Except String (ConvertResult × Nat)
  | .mk field op value, counter =>
    if isComparisonOperatorName op then convertComparisonCondition field op value counter
    else if op = "and" || op = "or" then
      match value with
      | none => .error "milvus filter condition is nil"
      | some (.conds l) =>
        match convertLogicalFold op l none counter with
        | .error e => .error e
        | .ok (none, _) => .error "empty logical condition"
        | .ok (some r, c) => .ok (r, c)
      | some _ => .error "invalid logical condition value type"
    else if op = "in" || op = "not in" then convertInCondition field op value counter
    else if op = "between" then convertBetweenCondition field value counter
    else .error ("unsupported operator: " ++ op)

/-- The loop body of `convertLogicalCondition`: fold the children left to
right, parenthesizing and joining non-empty sub-expressions and merging the
parameter maps. -/
def convertLogicalFold (op : String) : CondList → Option ConvertResult → Nat →
    Except String (Option ConvertResult × Nat)
  | .nil, acc, counter => .ok (acc, counter)
  | .cons c t, acc, counter =>
    match convertCondition c counter with
    | .error e => .error e
    | .ok (childRes, c1) =>
      let acc' : Option ConvertResult :=
        if childRes.exprStr = "" then acc
        else match acc with
          | none => some childRes
          | some a => some ⟨"(" ++ a.exprStr ++ ") " ++ strToLower op ++ " (" ++
              childRes.exprStr ++ ")", mapCopy a.params childRes.params⟩
      convertLogicalFold op t acc' c1
end

/-- `filter.Convert`: run the conversion with the counter starting at zero. -/
def Convert (cond : UniversalFilterCondition) : Except String ConvertResult :=
  (convertCondition cond 0).map Prod.fst

/-!  Injection safety (claim C1): replacing every scalar literal of the tree
leaves the expression string and the parameter names unchanged; only the
bound parameter values change. -/

mutual
/-- Replace every scalar literal in a condition tree by `f` of it, keeping
fields, operators and the tree shape intact. -/
def mapScalarsC (f : String → String) : UniversalFilterCondition → UniversalFilterCondition
  | .mk field op none => .mk field op none
  | .mk field op (some v) => .mk field op (some (mapScalarsV f v))

def mapScalarsV (f : String → String) : FilterValue → FilterValue
  | .scalar s => .scalar (f s)
  | .slist l => .slist (l.map f)
  | .conds l => .conds (mapScalarsL f l)
  | .cond c => .cond (mapScalarsC f c)

def mapScalarsL (f : String → String) : CondList → CondList
  | .nil => .nil
  | .cons c t => .cons (mapScalarsC f c) (mapScalarsL f t)
end

/-- Apply `f` to the scalar literals bound in a parameter map, keeping keys. -/
def mapParams (f : String → String) (ps : List (String × FilterValue)) :
    List (String × FilterValue) :=
  ps.map (fun p => (p.1, mapScalarsV f p.2))

/-- Apply `f` to the literals of a conversion result, keeping the expression. -/
def mapRes (f : String → String) (r : ConvertResult) : ConvertResult :=
  ⟨r.exprStr, mapParams f r.params⟩

theorem mapScalarsC_mk (f : String → String) (field op : String)
    (value : Option FilterValue) :
    mapScalarsC f (.mk field op value) = .mk field op (value.map (mapScalarsV f)) := by
  cases value <;> rfl

theorem length_mapScalarsL (f : String → String) :
    ∀ l : CondList, (mapScalarsL f l).length = l.length
  | .nil => rfl
  | .cons c t => by simp [mapScalarsL, CondList.length, length_mapScalarsL f t]

theorem mapInsert_mapParams (f : String → String) (m : List (String × FilterValue))
    (k : String) (v : FilterValue) :
    mapInsert (mapParams f m) k (mapScalarsV f v) = mapParams f (mapInsert m k v) := by
  unfold mapInsert mapParams
  simp only [List.any_map]
  have hco : ((fun (p : String × FilterValue) => decide (p.1 = k)) ∘
      (fun (p : String × FilterValue) => (p.1, mapScalarsV f p.2))) =
      (fun (p : String × FilterValue) => decide (p.1 = k)) := rfl
  rw [hco]
  by_cases h : m.any (fun p => decide (p.1 = k)) = true
  · simp only [h, if_true, List.map_map]
    have hfe : ((fun (p : String × FilterValue) => if p.1 = k then (k, mapScalarsV f v) else p) ∘
        (fun (p : String × FilterValue) => (p.1, mapScalarsV f p.2))) =
        ((fun (p : String × FilterValue) => (p.1, mapScalarsV f p.2)) ∘
        (fun (p : String × FilterValue) => if p.1 = k then (k, v) else p)) := by
      funext p
      by_cases hp : p.1 = k <;> simp [Function.comp, hp]
    rw [hfe]
  · simp only [h, if_false]
    simp

theorem mapCopy_mapParams (f : String → String) :
    ∀ (src dst : List (String × FilterValue)),
    mapCopy (mapParams f dst) (mapParams f src) = mapParams f (mapCopy dst src) := by
  intro src
  induction src with
  | nil => intro dst; rfl
  | cons p t ih =>
    intro dst
    show mapCopy (mapParams f dst) (mapParams f (p :: t)) = _
    unfold mapParams
    simp only [List.map_cons]
    show List.foldl _ (mapInsert (mapParams f dst) p.1 (mapScalarsV f p.2)) (mapParams f t) = _
    rw [mapInsert_mapParams]
    have := ih (mapInsert dst p.1 p.2)
    unfold mapCopy mapParams at this ⊢
    simpa using this

theorem convertComparisonCondition_mapScalars (f : String → String)
    (field op : String) (value : Option FilterValue) (k : Nat) :
    convertComparisonCondition field op (value.map (mapScalarsV f)) k =
      (convertComparisonCondition field op value k).map (fun p => (mapRes f p.1, p.2)) := by
  unfold convertComparisonCondition
  by_cases hf : field = ""
  · simp [hf, Except.map]
  · simp only [hf, if_false]
    cases value with
    | none => rfl
    | some v =>
      simp only [Option.map_some']
      cases comparisonOperators op <;>
        simp [Except.map, convertParamName, mapRes, mapParams]

theorem convertInCondition_mapScalars (f : String → String)
    (field op : String) (value : Option FilterValue) (k : Nat) :
    convertInCondition field op (value.map (mapScalarsV f)) k =
      (convertInCondition field op value k).map (fun p => (mapRes f p.1, p.2)) := by
  unfold convertInCondition
  by_cases hf : field = ""
  · simp [hf, Except.map]
  · simp only [hf, if_false]
    cases value with
    | none => rfl
    | some v =>
      simp only [Option.map_some']
      have hlen : (match mapScalarsV f v with
          | .slist l => some l.length
          | .conds l => some l.length
          | _ => none) = (match v with
          | FilterValue.slist l => some l.length
          | FilterValue.conds l => some l.length
          | _ => none) := by
        cases v <;> simp [mapScalarsV, length_mapScalarsL]
      rw [hlen]
      cases hm : (match v with
          | FilterValue.slist l => some l.length
          | FilterValue.conds l => some l.length
          | _ => none) with
      | none => rfl
      | some n =>
        by_cases hn : n ≤ 0 <;>
          simp [hn, Except.map, convertParamName, mapRes, mapParams]

theorem convertBetweenCondition_mapScalars (f : String → String)
    (field : String) (value : Option FilterValue) (k : Nat) :
    convertBetweenCondition field (value.map (mapScalarsV f)) k =
      (convertBetweenCondition field value k).map (fun p => (mapRes f p.1, p.2)) := by
  unfold convertBetweenCondition
  by_cases hf : field = ""
  · simp [hf, Except.map]
  · simp only [hf, if_false]
    cases value with
    | none => rfl
    | some v =>
      simp only [Option.map_some']
      have hpair : (match mapScalarsV f v with
          | .slist [a, b] => some (FilterValue.scalar a, FilterValue.scalar b)
          | .conds (.cons a (.cons b .nil)) => some (FilterValue.cond a, FilterValue.cond b)
          | _ => none) = (match v with
          | FilterValue.slist [a, b] =>
              some (FilterValue.scalar (f a), FilterValue.scalar (f b))
          | FilterValue.conds (.cons a (.cons b .nil)) =>
              some (FilterValue.cond (mapScalarsC f a), FilterValue.cond (mapScalarsC f b))
          | _ => none) := by
        cases v with
        | scalar s => rfl
        | cond c => rfl
        | slist l =>
          match l with
          | [] => rfl
          | [a] => rfl
          | [a, b] => rfl
          | a :: b :: c :: t => rfl
        | conds l =>
          match l with
          | .nil => rfl
          | .cons a .nil => rfl
          | .cons a (.cons b .nil) => rfl
          | .cons a (.cons b (.cons c t)) => rfl
      rw [hpair]
      cases v with
      | scalar s => rfl
      | cond c => rfl
      | slist l =>
        match l with
        | [] => rfl
        | [a] => rfl
        | [a, b] => simp [Except.map, convertParamName, mapRes, mapParams, mapScalarsV]
        | a :: b :: c :: t => rfl
      | conds l =>
        match l with
        | .nil => rfl
        | .cons a .nil => rfl
        | .cons a (.cons b .nil) =>
          simp [Except.map, convertParamName, mapRes, mapParams, mapScalarsV]
        | .cons a (.cons b (.cons c t)) => rfl

theorem convert_mapScalars_aux (f : String → String) : ∀ n : Nat,
    (∀ (c : UniversalFilterCondition) (k : Nat), sizeOf c ≤ n →
      convertCondition (mapScalarsC f c) k =
        (convertCondition c k).map (fun p => (mapRes f p.1, p.2))) ∧
    (∀ (op : String) (l : CondList) (acc : Option ConvertResult) (k : Nat), sizeOf l ≤ n →
      convertLogicalFold op (mapScalarsL f l) (acc.map (mapRes f)) k =
        (convertLogicalFold op l acc k).map (fun p => (p.1.map (mapRes f), p.2))) := by
  intro n
  induction n using Nat.strong_induction_on with
  | _ n ih =>
    constructor
    · intro c k hsz
      obtain ⟨field, op, value⟩ := c
      rw [mapScalarsC_mk]
      rw [convertCondition.eq_def, convertCondition.eq_def]
      by_cases hcmp : isComparisonOperatorName op = true
      · simp only [hcmp, if_true]
        exact convertComparisonCondition_mapScalars f field op value k
      · simp only [hcmp, if_false, Bool.false_eq_true]
        by_cases hlog : (op = "and" || op = "or") = true
        · simp only [hlog, if_true]
          cases value with
          | none => rfl
          | some v =>
            simp only [Option.map_some']
            cases v with
            | scalar s => rfl
            | slist l => rfl
            | cond c2 => rfl
            | conds l =>
              simp only [mapScalarsV]
              have hlt : sizeOf l < n := by
                have : sizeOf l < sizeOf (UniversalFilterCondition.mk field op
                    (some (FilterValue.conds l))) := by
                  simp <;> omega
                omega
              have hrec := (ih (sizeOf l) hlt).2 op l none k le_rfl
              simp only [Option.map_none'] at hrec
              rw [hrec]
              cases hfold : convertLogicalFold op l none k with
              | error e => rfl
              | ok p =>
                obtain ⟨accv, c1⟩ := p
                cases accv <;> simp [Except.map, Option.map]
        · simp only [hlog, if_false, Bool.false_eq_true]
          by_cases hin : (op = "in" || op = "not in") = true
          · simp only [hin, if_true]
            exact convertInCondition_mapScalars f field op value k
          · simp only [hin, if_false, Bool.false_eq_true]
            by_cases hbet : op = "between"
            · simp only [hbet, if_true]
              exact convertBetweenCondition_mapScalars f field value k
            · simp only [hbet, if_false]
              rfl
    · intro op l acc k hsz
      cases l with
      | nil => simp [convertLogicalFold, mapScalarsL, Except.map]
      | cons c t =>
        show convertLogicalFold op (.cons (mapScalarsC f c) (mapScalarsL f t)) _ k = _
        rw [convertLogicalFold.eq_def, convertLogicalFold.eq_def]
        dsimp only
        have hltc : sizeOf c < n := by
          have : sizeOf c < sizeOf (CondList.cons c t) := by simp <;> omega
          omega
        have hltt : sizeOf t < n := by
          have : sizeOf t < sizeOf (CondList.cons c t) := by simp <;> omega
          omega
        rw [(ih (sizeOf c) hltc).1 c k le_rfl]
        cases hc : convertCondition c k with
        | error e => rfl
        | ok p =>
          obtain ⟨childRes, c1⟩ := p
          simp only [Except.map]
          by_cases he : childRes.exprStr = ""
          · have hmr : (mapRes f childRes).exprStr = "" := he
            simp only [hmr, he, if_true]
            exact (ih (sizeOf t) hltt).2 op t acc c1 le_rfl
          · have hne : ¬((mapRes f childRes).exprStr = "") := he
            simp only [he, hne, if_false]
            cases acc with
            | none =>
              simpa using (ih (sizeOf t) hltt).2 op t (some childRes) c1 le_rfl
            | some a =>
              have hmc := mapCopy_mapParams f childRes.params a.params
              have hrec := (ih (sizeOf t) hltt).2 op t
                (some ⟨"(" ++ a.exprStr ++ ") " ++ strToLower op ++ " (" ++
                  childRes.exprStr ++ ")", mapCopy a.params childRes.params⟩) c1 le_rfl
              simpa [mapRes, hmc] using hrec

theorem convertCondition_mapScalars (f : String → String)
    (c : UniversalFilterCondition) (k : Nat) :
    convertCondition (mapScalarsC f c) k =
      (convertCondition c k).map (fun p => (mapRes f p.1, p.2)) :=
  (convert_mapScalars_aux f (sizeOf c)).1 c k le_rfl

/-- Claim C1: for every condition tree the compiler accepts, the expression
string references values only through parameter placeholders: replacing every
scalar literal in the tree leaves the expression string and the parameter
names unchanged, and the literals appear (mapped) only in the parameter map. -/
theorem convert_injection_safety (c : UniversalFilterCondition)
    (f : String → String) (r : ConvertResult) (h : Convert c = .ok r) :
    Convert (mapScalarsC f c) = .ok ⟨r.exprStr, mapParams f r.params⟩ := by
  unfold Convert at h ⊢
  rw [convertCondition_mapScalars]
  cases hc : convertCondition c 0 with
  | error e => rw [hc] at h; simp [Except.map] at h
  | ok p =>
    rw [hc] at h
    simp only [Except.map, Except.ok.injEq] at h
    subst h
    rfl

/-- Witness for C1 at a concrete tree and literal renaming. -/
theorem convert_injection_safety_witness :
    Convert (.mk "name" "eq" (some (.scalar "bob"))) =
      .ok ⟨"name == \x7bname_1\x7d", [("name_1", .scalar "bob")]⟩ ∧
    Convert (mapScalarsC (fun s => s ++ "-x") (.mk "name" "eq" (some (.scalar "bob")))) =
      .ok ⟨"name == \x7bname_1\x7d",
        mapParams (fun s => s ++ "-x") [("name_1", .scalar "bob")]⟩ := by
  refine ⟨rfl, ?_⟩
  exact convert_injection_safety (.mk "name" "eq" (some (.scalar "bob")))
    (fun s => s ++ "-x") ⟨"name == \x7bname_1\x7d", [("name_1", .scalar "bob")]⟩ rfl

/-!  Parameter-name generation (claim C3).  `mkParamName field i` is the name
produced when `convertParamName` returns counter value `i`. -/

def mkParamName (field : String) (i : Nat) : String :=
  replaceDots field ++ "_" ++ Nat.repr i

theorem convertParamName_eq (field : String) (k : Nat) :
    convertParamName field k = (mkParamName field (k + 1), k + 1) := rfl

/-- Names with distinct counter values are distinct, because the decimal
counter is the digit block after the final underscore. -/
theorem mkParamName_counter_inj (f1 f2 : String) (i1 i2 : Nat)
    (h : mkParamName f1 i1 = mkParamName f2 i2) : i1 = i2 := by
  have hdata := congrArg String.data h
  simp only [mkParamName, String.data_append, List.append_assoc] at hdata
  simp only [List.singleton_append] at hdata
  have hrev := congrArg List.reverse hdata
  simp only [List.reverse_append, List.reverse_cons] at hrev
  rw [List.append_assoc, List.append_assoc] at hrev
  simp only [List.singleton_append] at hrev
  have hsuf := digit_suffix_eq (Nat.repr i1).data.reverse (Nat.repr i2).data.reverse
    (fun c hc => repr_isDigit i1 c (List.mem_reverse.mp hc))
    (fun c hc => repr_isDigit i2 c (List.mem_reverse.mp hc))
    (replaceDots f1).data.reverse (replaceDots f2).data.reverse hrev
  have : (Nat.repr i1).data = (Nat.repr i2).data := List.reverse_injective hsuf
  exact repr_injective (String.ext this)

mutual
/-- The list of parameter names the compiler generates for a tree, with the
final counter value; mirrors the successful paths of `convertCondition`. -/
def genNamesC : UniversalFilterCondition → Nat → List String × Nat
  | .mk field op value, k =>
    if isComparisonOperatorName op then ([mkParamName field (k + 1)], k + 1)
    else if op = "and" || op = "or" then
      match value with
      | some (.conds l) => genNamesL l k
      | _ => ([], k)
    else if op = "in" || op = "not in" then ([mkParamName field (k + 1)], k + 1)
    else if op = "between" then
      ([mkParamName field (k + 1) ++ "_0", mkParamName field (k + 1) ++ "_1"], k + 1)
    else ([], k)

def genNamesL : CondList → Nat → List String × Nat
  | .nil, k => ([], k)
  | .cons c t, k =>
    let (ns, k1) := genNamesC c k
    let (ns2, k2) := genNamesL t k1
    (ns ++ ns2, k2)
end

mutual
/-- No `between` condition occurs at a position the compiler converts. -/
def noBetweenC : UniversalFilterCondition → Bool
  | .mk _ op value =>
    if op = "between" then false
    else if op = "and" || op = "or" then
      match value with
      | some (.conds l) => noBetweenL l
      | _ => true
    else true

def noBetweenL : CondList → Bool
  | .nil => true
  | .cons c t => noBetweenC c && noBetweenL t
end

/-- Every name in `ns` is a `convertParamName` result with counter in
`(lo, hi]`. -/
def NameSpan (ns : List String) (lo hi : Nat) : Prop :=
  ∀ n ∈ ns, ∃ f i, n = mkParamName f i ∧ lo < i ∧ i ≤ hi

theorem NameSpan.mono {ns : List String} {lo hi lo2 hi2 : Nat} (hlo : lo2 ≤ lo)
    (hhi : hi ≤ hi2) (h : NameSpan ns lo hi) : NameSpan ns lo2 hi2 := by
  intro n hn
  obtain ⟨f, i, hf, h1, h2⟩ := h n hn
  exact ⟨f, i, hf, by omega, by omega⟩

theorem NameSpan.append {a b : List String} {lo hi : Nat}
    (ha : NameSpan a lo hi) (hb : NameSpan b lo hi) : NameSpan (a ++ b) lo hi := by
  intro n hn
  rcases List.mem_append.mp hn with hm | hm
  · exact ha n hm
  · exact hb n hm

theorem NameSpan.nil (lo hi : Nat) : NameSpan [] lo hi := by
  intro n hn
  simp at hn

/-- Names from disjoint counter intervals are distinct. -/
theorem NameSpan.disjoint {a b : List String} {lo k hi : Nat}
    (ha : NameSpan a lo k) (hb : NameSpan b k hi) :
    ∀ x ∈ a, ∀ y ∈ b, x ≠ y := by
  intro x hx y hy hxy
  obtain ⟨f1, i1, rfl, ha1, ha2⟩ := ha x hx
  obtain ⟨f2, i2, rfl, hb1, hb2⟩ := hb y hy
  have := mkParamName_counter_inj f1 f2 i1 i2 hxy
  omega

theorem str_append_ne_empty (a b : String) (hb : b ≠ "") : a ++ b ≠ "" := by
  intro h
  apply hb
  have hdata := congrArg String.data h
  simp only [String.data_append] at hdata
  have hnil : b.data = [] := (List.append_eq_nil.mp hdata).2
  exact String.ext hnil

/-- The keys of a parameter map. -/
def keysOf (ps : List (String × FilterValue)) : List String := ps.map Prod.fst

theorem mapInsert_not_mem (m : List (String × FilterValue)) (k : String)
    (v : FilterValue) (h : k ∉ keysOf m) : mapInsert m k v = m ++ [(k, v)] := by
  unfold mapInsert
  have hany : m.any (fun p => p.1 = k) = false := by
    rw [List.any_eq_false]
    intro p hp
    simp only [decide_eq_true_eq]
    intro hpk
    exact h (by rw [← hpk]; exact List.mem_map_of_mem Prod.fst hp)
  simp [hany]

/-- When the source keys avoid the destination keys and are themselves
distinct, `maps.Copy` is plain concatenation. -/
theorem mapCopy_append_of_disjoint : ∀ (src dst : List (String × FilterValue)),
    (∀ x ∈ keysOf src, x ∉ keysOf dst) → (keysOf src).Pairwise (· ≠ ·) →
    mapCopy dst src = dst ++ src := by
  intro src
  induction src with
  | nil => intro dst _ _; simp [mapCopy]
  | cons p t ih =>
    intro dst hdis hpw
    have hkeys : keysOf (p :: t) = p.1 :: keysOf t := rfl
    rw [hkeys] at hdis hpw
    have hstep : mapCopy dst (p :: t) = mapCopy (mapInsert dst p.1 p.2) t := rfl
    rw [hstep, mapInsert_not_mem dst p.1 p.2 (hdis p.1 (List.mem_cons_self _ _))]
    have hpw2 := List.pairwise_cons.mp hpw
    have hdis2 : ∀ x ∈ keysOf t, x ∉ keysOf (dst ++ [p]) := by
      intro x hx hmem
      have : keysOf (dst ++ [p]) = keysOf dst ++ [p.1] := by
        simp [keysOf]
      rw [this] at hmem
      rcases List.mem_append.mp hmem with hm | hm
      · exact hdis x (List.mem_cons_of_mem _ hx) hm
      · have hxp : x = p.1 := List.mem_singleton.mp hm
        exact hpw2.1 x hx (by rw [hxp])
    rw [ih (dst ++ [p]) hdis2 hpw2.2, List.append_assoc]
    rfl

/-- The keys of an optional accumulated conversion result. -/
def optKeys : Option ConvertResult → List String
  | none => []
  | some r => r.params.map Prod.fst

/-- Invariant carried by the logical-fold accumulator: a non-empty expression,
keys generated with counters in `(lo, hi]`, pairwise distinct. -/
def AccOK (acc : Option ConvertResult) (lo hi : Nat) : Prop :=
  (∀ r, acc = some r → r.exprStr ≠ "") ∧
  NameSpan (optKeys acc) lo hi ∧ (optKeys acc).Pairwise (· ≠ ·)

theorem AccOK.none (lo hi : Nat) : AccOK none lo hi := by
  refine ⟨fun r hr => by simp at hr, NameSpan.nil lo hi, by simp [optKeys]⟩

/-- Central counter/name accounting for the compiler on `between`-free trees:
under success the parameter keys are exactly the generated names, they use
counters inside `(k, k2]`, and they are pairwise distinct. -/
theorem convert_names_aux : ∀ n : Nat,
    (∀ (c : UniversalFilterCondition) (k : Nat) (r : ConvertResult) (k2 : Nat),
      sizeOf c ≤ n → noBetweenC c = true → convertCondition c k = .ok (r, k2) →
      k ≤ k2 ∧ genNamesC c k = (r.params.map Prod.fst, k2) ∧ r.exprStr ≠ "" ∧
      NameSpan (r.params.map Prod.fst) k k2 ∧
      (r.params.map Prod.fst).Pairwise (· ≠ ·)) ∧
    (∀ (op : String) (l : CondList) (acc : Option ConvertResult) (k : Nat)
      (res : Option ConvertResult) (k2 lo : Nat),
      sizeOf l ≤ n → noBetweenL l = true → lo ≤ k → AccOK acc lo k →
      convertLogicalFold op l acc k = .ok (res, k2) →
      k ≤ k2 ∧ (genNamesL l k).2 = k2 ∧
      optKeys res = optKeys acc ++ (genNamesL l k).1 ∧
      NameSpan (genNamesL l k).1 k k2 ∧ AccOK res lo k2) := by
  intro n
  induction n using Nat.strong_induction_on with
  | _ n ih =>
    constructor
    · intro c k r k2 hsz hnb hconv
      obtain ⟨field, op, value⟩ := c
      rw [convertCondition.eq_def] at hconv
      rw [genNamesC.eq_def]
      by_cases hcmp : isComparisonOperatorName op = true
      · simp only [hcmp, if_true] at hconv ⊢
        unfold convertComparisonCondition at hconv
        by_cases hf : field = ""
        · simp [hf] at hconv
        · simp only [hf, if_false] at hconv
          cases value with
          | none => simp at hconv
          | some v =>
            cases hop : comparisonOperators op with
            | none => rw [hop] at hconv; simp at hconv
            | some sym =>
              rw [hop] at hconv
              simp only [convertParamName_eq, Except.ok.injEq, Prod.mk.injEq] at hconv
              obtain ⟨hr, hk⟩ := hconv
              subst hk
              subst hr
              refine ⟨by omega, rfl, ?_,?_, by simp⟩
              · exact str_append_ne_empty _ "\x7d" (by decide)
              · intro nm hnm
                rw [List.map_singleton, List.mem_singleton] at hnm
                exact ⟨field, k + 1, hnm, Nat.lt_succ_self k, le_rfl⟩
      · simp only [hcmp, if_false, Bool.false_eq_true] at hconv ⊢
        by_cases hlog : (op = "and" || op = "or") = true
        · simp only [hlog, if_true] at hconv ⊢
          have hbetop : op ≠ "between" := by
            rcases Bool.or_eq_true_iff.mp hlog with h1 | h1 <;>
              (rw [decide_eq_true_eq] at h1; subst h1; decide)
          cases value with
          | none => simp at hconv
          | some v =>
            cases v with
            | scalar s => simp at hconv
            | slist l2 => simp at hconv
            | cond c2 => simp at hconv
            | conds l =>
              dsimp only at hconv ⊢
              rw [noBetweenC.eq_def] at hnb
              simp only [hbetop, hlog, if_false, if_true] at hnb
              cases hfold : convertLogicalFold op l none k with
              | error e => rw [hfold] at hconv; simp at hconv
              | ok p =>
                obtain ⟨accv, c1⟩ := p
                rw [hfold] at hconv
                cases accv with
                | none => simp at hconv
                | some r0 =>
                  simp only [Except.ok.injEq, Prod.mk.injEq] at hconv
                  obtain ⟨hr, hk⟩ := hconv
                  subst hr
                  subst hk
                  have hlt : sizeOf l < n := by
                    have : sizeOf l < sizeOf (UniversalFilterCondition.mk field op
                        (some (FilterValue.conds l))) := by simp <;> omega
                    omega
                  have hq := (ih (sizeOf l) hlt).2 op l none k (some r0) c1 k le_rfl
                    hnb le_rfl (AccOK.none k k) hfold
                  obtain ⟨hk12, hgen2, hkeys, hspan, hok⟩ := hq
                  have hkeys2 : r0.params.map Prod.fst = (genNamesL l k).1 := by
                    have hok2 : optKeys (some r0) = r0.params.map Prod.fst := rfl
                    rw [hok2] at hkeys
                    simpa using hkeys
                  refine ⟨hk12, ?_, hok.1 r0 rfl, ?_, ?_⟩
                  · have hpair : genNamesL l k = ((genNamesL l k).1, (genNamesL l k).2) := rfl
                    rw [hpair, hgen2, hkeys2]
                  · rw [hkeys2]; exact hspan
                  · have := hok.2.2
                    simpa [optKeys] using this
        · simp only [hlog, if_false, Bool.false_eq_true] at hconv ⊢
          by_cases hin : (op = "in" || op = "not in") = true
          · simp only [hin, if_true] at hconv ⊢
            unfold convertInCondition at hconv
            by_cases hf : field = ""
            · simp [hf] at hconv
            · simp only [hf, if_false] at hconv
              cases value with
              | none => simp at hconv
              | some v =>
                dsimp only at hconv
                cases hlenv : (match v with
                    | FilterValue.slist l => some l.length
                    | FilterValue.conds l => some l.length
                    | _ => none) with
                | none => rw [hlenv] at hconv; simp at hconv
                | some m =>
                  rw [hlenv] at hconv
                  by_cases hm : m ≤ 0
                  · simp [hm] at hconv
                  · simp only [hm, if_false] at hconv
                    simp only [convertParamName_eq, Except.ok.injEq, Prod.mk.injEq] at hconv
                    obtain ⟨hr, hk⟩ := hconv
                    subst hk
                    subst hr
                    refine ⟨by omega, rfl, ?_, ?_, by simp⟩
                    · exact str_append_ne_empty _ "\x7d" (by decide)
                    · intro nm hnm
                      rw [List.map_singleton, List.mem_singleton] at hnm
                      exact ⟨field, k + 1, hnm, Nat.lt_succ_self k, le_rfl⟩
          · simp only [hin, if_false, Bool.false_eq_true] at hconv ⊢
            by_cases hbet : op = "between"
            · rw [noBetweenC.eq_def] at hnb
              simp [hbet] at hnb
            · simp only [hbet, if_false] at hconv
              simp at hconv
    · intro op l acc k res k2 lo hsz hnb hlo hacc hfold
      cases l with
      | nil =>
        rw [convertLogicalFold.eq_def] at hfold
        simp only [Except.ok.injEq, Prod.mk.injEq] at hfold
        obtain ⟨hr, hk⟩ := hfold
        have hgen : genNamesL CondList.nil k = ([], k) := rfl
        refine ⟨by omega, by rw [hgen]; exact hk, ?_, ?_, ?_⟩
        · rw [hgen, ← hr]
          simp
        · rw [hgen]
          exact NameSpan.nil k k2
        · rw [← hr, ← hk]
          exact hacc
      | cons c t =>
        rw [convertLogicalFold.eq_def] at hfold
        dsimp only at hfold
        have hnbc : noBetweenC c = true ∧ noBetweenL t = true := by
          rw [noBetweenL.eq_def] at hnb
          exact Bool.and_eq_true_iff.mp hnb
        have hltc : sizeOf c < n := by
          have : sizeOf c < sizeOf (CondList.cons c t) := by simp <;> omega
          omega
        have hltt : sizeOf t < n := by
          have : sizeOf t < sizeOf (CondList.cons c t) := by simp <;> omega
          omega
        cases hc : convertCondition c k with
        | error e => rw [hc] at hfold; simp at hfold
        | ok p =>
          obtain ⟨childRes, c1⟩ := p
          rw [hc] at hfold
          have hp := (ih (sizeOf c) hltc).1 c k childRes c1 le_rfl hnbc.1 hc
          obtain ⟨hkc1, hgenc, hexpr, hspanc, hpwc⟩ := hp
          simp only [hexpr, if_false] at hfold
          have hgenl : genNamesL (.cons c t) k =
              ((genNamesC c k).1 ++ (genNamesL t c1).1, (genNamesL t c1).2) := by
            rw [genNamesL.eq_def]
            dsimp only
            rw [hgenc]
          cases acc with
          | none =>
            dsimp only at hfold
            have haccc : AccOK (some childRes) lo c1 := by
              refine ⟨fun r hr => by cases hr; exact hexpr, ?_, hpwc⟩
              exact NameSpan.mono hlo le_rfl hspanc
            have hq := (ih (sizeOf t) hltt).2 op t (some childRes) c1 res k2 lo
              le_rfl hnbc.2 (hlo.trans hkc1) haccc hfold
            obtain ⟨hkt, hgent2, hkeyst, hspant, hokt⟩ := hq
            refine ⟨hkc1.trans hkt, ?_, ?_, ?_, hokt⟩
            · rw [hgenl]; exact hgent2
            · rw [hgenl]
              show optKeys res = [] ++ ((genNamesC c k).1 ++ (genNamesL t c1).1)
              rw [hkeyst, hgenc]
              simp [optKeys]
            · rw [hgenl]
              show NameSpan ((genNamesC c k).1 ++ (genNamesL t c1).1) k k2
              refine NameSpan.append ?_ ?_
              · rw [hgenc]
                exact NameSpan.mono le_rfl hkt hspanc
              · exact NameSpan.mono hkc1 le_rfl hspant
          | some a =>
            dsimp only at hfold
            obtain ⟨hexA, hspanA, hpwA⟩ := hacc
            have hspanA2 : NameSpan (a.params.map Prod.fst) lo k := hspanA
            have hpwA2 : (a.params.map Prod.fst).Pairwise (· ≠ ·) := hpwA
            have hdisj := NameSpan.disjoint hspanA2 hspanc
            have hcopy : mapCopy a.params childRes.params =
                a.params ++ childRes.params := by
              refine mapCopy_append_of_disjoint childRes.params a.params ?_ hpwc
              intro x hx hmem
              exact hdisj x hmem x hx rfl
            set joined : ConvertResult :=
              ⟨"(" ++ a.exprStr ++ ") " ++ strToLower op ++ " (" ++
                childRes.exprStr ++ ")", mapCopy a.params childRes.params⟩ with hjoined
            have hjkeys : optKeys (some joined) =
                a.params.map Prod.fst ++ childRes.params.map Prod.fst := by
              show (mapCopy a.params childRes.params).map Prod.fst = _
              rw [hcopy, List.map_append]
            have haccj : AccOK (some joined) lo c1 := by
              refine ⟨fun r hr => by cases hr; exact str_append_ne_empty _ ")" (by decide), ?_, ?_⟩
              · rw [hjkeys]
                refine NameSpan.append (NameSpan.mono le_rfl hkc1 hspanA2) ?_
                exact NameSpan.mono hlo le_rfl hspanc
              · rw [hjkeys]
                rw [List.pairwise_append]
                exact ⟨hpwA2, hpwc, fun x hx y hy => hdisj x hx y hy⟩
            have hq := (ih (sizeOf t) hltt).2 op t (some joined) c1 res k2 lo
              le_rfl hnbc.2 (hlo.trans hkc1) haccj hfold
            obtain ⟨hkt, hgent2, hkeyst, hspant, hokt⟩ := hq
            refine ⟨hkc1.trans hkt, ?_, ?_, ?_, hokt⟩
            · rw [hgenl]; exact hgent2
            · rw [hgenl]
              show optKeys res = optKeys (some a) ++
                ((genNamesC c k).1 ++ (genNamesL t c1).1)
              rw [hkeyst, hjkeys, hgenc]
              show (a.params.map Prod.fst ++ childRes.params.map Prod.fst) ++
                (genNamesL t c1).1 = optKeys (some a) ++
                  ((childRes.params.map Prod.fst, c1).1 ++ (genNamesL t c1).1)
              rw [List.append_assoc]
              rfl
            · rw [hgenl]
              show NameSpan ((genNamesC c k).1 ++ (genNamesL t c1).1) k k2
              refine NameSpan.append ?_ ?_
              · rw [hgenc]
                exact NameSpan.mono le_rfl hkt hspanc
              · exact NameSpan.mono hkc1 le_rfl hspant


mutual
/-- Trees whose internal nodes are non-degenerate `and`/`or` conditions and
whose leaves are valid comparison or membership conditions. -/
def isCMTreeC : UniversalFilterCondition → Bool
  | .mk field op value =>
    if op = "and" || op = "or" then
      match value with
      | some (.conds l) => (match l with | .nil => false | .cons _ _ => true) && isCMTreeL l
      | _ => false
    else if isComparisonOperatorName op then field ≠ "" && value.isSome
    else if op = "in" || op = "not in" then
      field ≠ "" && (match value with
        | some (.slist l2) => decide (0 < l2.length)
        | some (.conds l2) => decide (0 < l2.length)
        | _ => false)
    else false

def isCMTreeL : CondList → Bool
  | .nil => true
  | .cons c t => isCMTreeC c && isCMTreeL t
end

mutual
/-- One per comparison/membership leaf; logical nodes sum their children. -/
def leafCountC : UniversalFilterCondition → Nat
  | .mk _ op value =>
    if op = "and" || op = "or" then
      match value with
      | some (.conds l) => leafCountL l
      | _ => 0
    else 1

def leafCountL : CondList → Nat
  | .nil => 0
  | .cons c t => leafCountC c + leafCountL t
end

/-- The logical join of two parenthesized operand expressions. -/
def joinExpr (op : String) (x y : String) : String :=
  "(" ++ x ++ ") " ++ strToLower op ++ " (" ++ y ++ ")"

theorem comparisonOperators_isSome (op : String)
    (h : isComparisonOperatorName op = true) :
    ∃ sym, comparisonOperators op = some sym := by
  unfold isComparisonOperatorName at h
  simp only [Bool.or_eq_true, decide_eq_true_eq] at h
  rcases h with (((((((h | h) | h) | h) | h) | h) | h) | h) <;> subst h <;> exact ⟨_, rfl⟩

theorem cm_logical_ne_between (op : String) (h : (op = "and" || op = "or") = true) :
    op ≠ "between" := by
  rcases Bool.or_eq_true_iff.mp h with h1 | h1 <;>
    (rw [decide_eq_true_eq] at h1; subst h1; decide)

/-- Comparison/membership trees contain no `between` condition. -/
theorem cm_noBetween : ∀ n : Nat,
    (∀ c : UniversalFilterCondition, sizeOf c ≤ n →
      isCMTreeC c = true → noBetweenC c = true) ∧
    (∀ l : CondList, sizeOf l ≤ n → isCMTreeL l = true → noBetweenL l = true) := by
  intro n
  induction n using Nat.strong_induction_on with
  | _ n ih =>
    constructor
    · intro c hsz hcm
      obtain ⟨field, op, value⟩ := c
      rw [isCMTreeC.eq_def] at hcm
      rw [noBetweenC.eq_def]
      by_cases hlog : (op = "and" || op = "or") = true
      · simp only [hlog, if_true] at hcm ⊢
        have hbet := cm_logical_ne_between op hlog
        simp only [hbet, if_false]
        cases value with
        | none => simp at hcm
        | some v =>
          cases v with
          | scalar s => simp at hcm
          | slist l2 => simp at hcm
          | cond c2 => simp at hcm
          | conds l =>
            dsimp only at hcm ⊢
            have hcml : isCMTreeL l = true := (Bool.and_eq_true_iff.mp hcm).2
            have hlt : sizeOf l < n := by
              have : sizeOf l < sizeOf (UniversalFilterCondition.mk field op
                  (some (FilterValue.conds l))) := by simp <;> omega
              omega
            exact (ih (sizeOf l) hlt).2 l le_rfl hcml
      · simp only [hlog, if_false, Bool.false_eq_true] at hcm ⊢
        by_cases hcmp : isComparisonOperatorName op = true
        · have hbet : op ≠ "between" := by
            intro hb
            subst hb
            simp [isComparisonOperatorName] at hcmp
          simp [hbet, hlog]
        · simp only [hcmp, if_false, Bool.false_eq_true] at hcm
          by_cases hin : (op = "in" || op = "not in") = true
          · have hbet : op ≠ "between" := by
              rcases Bool.or_eq_true_iff.mp hin with h1 | h1 <;>
                (rw [decide_eq_true_eq] at h1; subst h1; decide)
            simp [hbet, hlog]
          · simp [hin] at hcm
    · intro l hsz hcm
      cases l with
      | nil => rfl
      | cons c t =>
        rw [isCMTreeL.eq_def] at hcm
        dsimp only at hcm
        rw [noBetweenL.eq_def]
        dsimp only
        have hp := Bool.and_eq_true_iff.mp hcm
        have hltc : sizeOf c < n := by
          have : sizeOf c < sizeOf (CondList.cons c t) := by simp <;> omega
          omega
        have hltt : sizeOf t < n := by
          have : sizeOf t < sizeOf (CondList.cons c t) := by simp <;> omega
          omega
        rw [(ih (sizeOf c) hltc).1 c le_rfl hp.1, (ih (sizeOf t) hltt).2 t le_rfl hp.2]
        rfl

/-- On comparison/membership trees, one generated name per leaf. -/
theorem cm_genNames_length : ∀ n : Nat,
    (∀ (c : UniversalFilterCondition) (k : Nat), sizeOf c ≤ n →
      isCMTreeC c = true → (genNamesC c k).1.length = leafCountC c) ∧
    (∀ (l : CondList) (k : Nat), sizeOf l ≤ n →
      isCMTreeL l = true → (genNamesL l k).1.length = leafCountL l) := by
  intro n
  induction n using Nat.strong_induction_on with
  | _ n ih =>
    constructor
    · intro c k hsz hcm
      obtain ⟨field, op, value⟩ := c
      rw [isCMTreeC.eq_def] at hcm
      rw [genNamesC.eq_def, leafCountC.eq_def]
      by_cases hlog : (op = "and" || op = "or") = true
      · have hcmp : isComparisonOperatorName op = false := by
          rcases Bool.or_eq_true_iff.mp hlog with h1 | h1 <;>
            (rw [decide_eq_true_eq] at h1; subst h1; rfl)
        simp only [hlog, hcmp, if_true, if_false, Bool.false_eq_true] at hcm ⊢
        cases value with
        | none => simp at hcm
        | some v =>
          cases v with
          | scalar s => simp at hcm
          | slist l2 => simp at hcm
          | cond c2 => simp at hcm
          | conds l =>
            dsimp only at hcm ⊢
            have hcml : isCMTreeL l = true := (Bool.and_eq_true_iff.mp hcm).2
            have hlt : sizeOf l < n := by
              have : sizeOf l < sizeOf (UniversalFilterCondition.mk field op
                  (some (FilterValue.conds l))) := by simp <;> omega
              omega
            exact (ih (sizeOf l) hlt).2 l k le_rfl hcml
      · simp only [hlog, if_false, Bool.false_eq_true] at hcm ⊢
        by_cases hcmp : isComparisonOperatorName op = true
        · simp [hcmp]
        · simp only [hcmp, if_false, Bool.false_eq_true] at hcm ⊢
          by_cases hin : (op = "in" || op = "not in") = true
          · simp [hin]
          · simp [hin] at hcm
    · intro l k hsz hcm
      cases l with
      | nil => rfl
      | cons c t =>
        rw [isCMTreeL.eq_def] at hcm
        dsimp only at hcm
        have hp := Bool.and_eq_true_iff.mp hcm
        have hltc : sizeOf c < n := by
          have : sizeOf c < sizeOf (CondList.cons c t) := by simp <;> omega
          omega
        have hltt : sizeOf t < n := by
          have : sizeOf t < sizeOf (CondList.cons c t) := by simp <;> omega
          omega
        have h1 := (ih (sizeOf c) hltc).1 c k le_rfl hp.1
        have h2 := (ih (sizeOf t) hltt).2 t (genNamesC c k).2 le_rfl hp.2
        rw [genNamesL.eq_def, leafCountL.eq_def]
        dsimp only
        rcases hgc : genNamesC c k with ⟨ns, k1⟩
        have hfst : ((ns, k1) : List String × Nat).1 = ns := rfl
        have hsnd : ((ns, k1) : List String × Nat).2 = k1 := rfl
        rw [hgc] at h1 h2
        simp only [hfst, hsnd] at h1 h2 ⊢
        rw [List.length_append]
        omega

/-- On comparison/membership trees the compiler succeeds, the expression is
non-empty, and a logical node folds one parenthesized operand per child. -/
theorem convert_cm_aux : ∀ n : Nat,
    (∀ (c : UniversalFilterCondition) (k : Nat), sizeOf c ≤ n → isCMTreeC c = true →
      ∃ r k2, convertCondition c k = .ok (r, k2) ∧ r.exprStr ≠ "" ∧
        (∀ field op l, c = .mk field op (some (.conds l)) →
          (op = "and" || op = "or") = true →
          ∃ (e : String) (es : List String), r.exprStr = es.foldl (joinExpr op) e ∧
            1 + es.length = CondList.length l ∧ e ≠ "")) ∧
    (∀ (op : String) (l : CondList) (a : ConvertResult) (k : Nat), sizeOf l ≤ n →
      isCMTreeL l = true → a.exprStr ≠ "" →
      ∃ (r : ConvertResult) (k2 : Nat) (es : List String),
        convertLogicalFold op l (some a) k = .ok (some r, k2) ∧
        es.length = CondList.length l ∧ r.exprStr = es.foldl (joinExpr op) a.exprStr ∧
        r.exprStr ≠ "") := by
  intro n
  induction n using Nat.strong_induction_on with
  | _ n ih =>
    constructor
    · intro c k hsz hcm
      obtain ⟨field, op, value⟩ := c
      rw [isCMTreeC.eq_def] at hcm
      by_cases hlog : (op = "and" || op = "or") = true
      · have hcmp : isComparisonOperatorName op = false := by
          rcases Bool.or_eq_true_iff.mp hlog with h1 | h1 <;>
            (rw [decide_eq_true_eq] at h1; subst h1; rfl)
        simp only [hlog, if_true] at hcm
        cases value with
        | none => simp at hcm
        | some v =>
          cases v with
          | scalar s => simp at hcm
          | slist l2 => simp at hcm
          | cond c2 => simp at hcm
          | conds l =>
            dsimp only at hcm
            have hpair := Bool.and_eq_true_iff.mp hcm
            cases l with
            | nil => simp at hpair
            | cons c0 t =>
              have hclsplit : isCMTreeC c0 = true ∧ isCMTreeL t = true := by
                have h2 := hpair.2
                rw [isCMTreeL.eq_def] at h2
                dsimp only at h2
                exact Bool.and_eq_true_iff.mp h2
              have hltc : sizeOf c0 < n := by
                have : sizeOf c0 < sizeOf (UniversalFilterCondition.mk field op
                    (some (FilterValue.conds (CondList.cons c0 t)))) := by simp <;> omega
                omega
              have hltt : sizeOf t < n := by
                have : sizeOf t < sizeOf (UniversalFilterCondition.mk field op
                    (some (FilterValue.conds (CondList.cons c0 t)))) := by simp <;> omega
                omega
              obtain ⟨r0, c1, hc0, hex0, _⟩ := (ih (sizeOf c0) hltc).1 c0 k le_rfl hclsplit.1
              obtain ⟨r, k2, es, hft, hlen, hexpr, hne⟩ :=
                (ih (sizeOf t) hltt).2 op t r0 c1 le_rfl hclsplit.2 hex0
              have hfold1 : convertLogicalFold op (.cons c0 t) none k
                  = convertLogicalFold op t (some r0) c1 := by
                rw [convertLogicalFold.eq_def]
                dsimp only
                rw [hc0]
                dsimp only
                rw [if_neg hex0]
              refine ⟨r, k2, ?_, hne, ?_⟩
              · rw [convertCondition.eq_def]
                simp only [hcmp, hlog, if_true, if_false, Bool.false_eq_true]
                rw [hfold1, hft]
              · intro f2 o2 l2 heq hlog2
                have hfe : field = f2 ∧ op = o2 ∧
                    FilterValue.conds (CondList.cons c0 t) = FilterValue.conds l2 := by
                  injection heq with e1 e2 e3
                  injection e3 with e4
                  exact ⟨e1, e2, e4⟩
                obtain ⟨rfl, rfl, e4⟩ := hfe
                injection e4 with e5
                subst e5
                exact ⟨r0.exprStr, es, hexpr, by simp [CondList.length]; omega, hex0⟩
      · simp only [hlog, if_false, Bool.false_eq_true] at hcm
        by_cases hcmp : isComparisonOperatorName op = true
        · simp only [hcmp, if_true] at hcm
          obtain ⟨hfb, hvb⟩ := Bool.and_eq_true_iff.mp hcm
          have hf : ¬(field = "") := by simpa using hfb
          obtain ⟨sym, hsym⟩ := comparisonOperators_isSome op hcmp
          cases value with
          | none => simp at hvb
          | some v =>
            refine ⟨⟨field ++ " " ++ sym ++ " \x7b" ++
              (convertParamName field k).1 ++ "\x7d",
              [((convertParamName field k).1, v)]⟩, k + 1, ?_, ?_, ?_⟩
            · rw [convertCondition.eq_def]
              simp only [hcmp, if_true]
              unfold convertComparisonCondition
              simp only [hf, if_false, hsym]
              rfl
            · exact str_append_ne_empty _ "\x7d" (by decide)
            · intro f2 o2 l2 heq hlog2
              have : op = o2 := by injection heq
              rw [← this] at hlog2
              exact absurd hlog2 hlog
        · simp only [hcmp, if_false, Bool.false_eq_true] at hcm
          by_cases hin : (op = "in" || op = "not in") = true
          · simp only [hin, if_true] at hcm
            obtain ⟨hfb, hvb⟩ := Bool.and_eq_true_iff.mp hcm
            have hf : ¬(field = "") := by simpa using hfb
            cases value with
            | none => simp at hvb
            | some v =>
              have hslice : ∃ m, (match v with
                  | FilterValue.slist l2 => some l2.length
                  | FilterValue.conds l2 => some l2.length
                  | _ => none) = some m ∧ 0 < m := by
                cases v with
                | scalar s => simp at hvb
                | cond c2 => simp at hvb
                | slist l2 => exact ⟨l2.length, rfl, by simpa using hvb⟩
                | conds l2 => exact ⟨l2.length, rfl, by simpa using hvb⟩
              obtain ⟨m, hm, hmpos⟩ := hslice
              refine ⟨⟨field ++ " " ++ strToLower op ++ " \x7b" ++
                (convertParamName field k).1 ++ "\x7d",
                [((convertParamName field k).1, v)]⟩, k + 1, ?_, ?_, ?_⟩
              · rw [convertCondition.eq_def]
                simp only [hcmp, hlog, hin, if_true, if_false, Bool.false_eq_true]
                unfold convertInCondition
                simp only [hf, if_false]
                rw [hm]
                dsimp only
                rw [if_neg (by omega : ¬(m ≤ 0))]
                rfl
              · exact str_append_ne_empty _ "\x7d" (by decide)
              · intro f2 o2 l2 heq hlog2
                have hopeq : op = o2 := by injection heq
                rw [← hopeq] at hlog2
                exact absurd hlog2 hlog
          · simp [hin] at hcm
    · intro op l a k hsz hcml hane
      cases l with
      | nil =>
        refine ⟨a, k, [], ?_, rfl, rfl, hane⟩
        rw [convertLogicalFold.eq_def]
      | cons c0 t =>
        have hclsplit : isCMTreeC c0 = true ∧ isCMTreeL t = true := by
          rw [isCMTreeL.eq_def] at hcml
          dsimp only at hcml
          exact Bool.and_eq_true_iff.mp hcml
        have hltc : sizeOf c0 < n := by
          have : sizeOf c0 < sizeOf (CondList.cons c0 t) := by simp <;> omega
          omega
        have hltt : sizeOf t < n := by
          have : sizeOf t < sizeOf (CondList.cons c0 t) := by simp <;> omega
          omega
        obtain ⟨r0, c1, hc0, hex0, _⟩ := (ih (sizeOf c0) hltc).1 c0 k le_rfl hclsplit.1
        have hjexp : (⟨joinExpr op a.exprStr r0.exprStr,
            mapCopy a.params r0.params⟩ : ConvertResult).exprStr ≠ "" :=
          str_append_ne_empty _ ")" (by decide)
        obtain ⟨r, k2, es, hft, hlen, hexpr, hne⟩ :=
          (ih (sizeOf t) hltt).2 op t
            ⟨joinExpr op a.exprStr r0.exprStr, mapCopy a.params r0.params⟩ c1
            le_rfl hclsplit.2 hjexp
        refine ⟨r, k2, r0.exprStr :: es, ?_, ?_, ?_, hne⟩
        · rw [convertLogicalFold.eq_def]
          dsimp only
          rw [hc0]
          dsimp only
          rw [if_neg hex0]
          exact hft
        · simp only [List.length_cons, CondList.length, hlen]
          omega
        · rw [List.foldl_cons]
          exact hexpr


/-- Claim C3 (amended): for every accepted tree containing no `between`
condition, the generated parameter names are pairwise distinct; and every
nested `and`/`or` tree whose leaves are valid comparison or membership
conditions compiles successfully to a merged parameter map with exactly one
entry per leaf and to an expression that is a left-to-right fold joining one
parenthesized operand per child with the lowercase operator.  (`between`
contributes its own `_0`/`_1` suffixes, which can collide with a comparison
name such as `a_2_1`; see the counterexample.) -/
theorem convert_param_names_amended (c : UniversalFilterCondition) :
    (∀ r, noBetweenC c = true → Convert c = .ok r →
      (r.params.map Prod.fst).Pairwise (· ≠ ·)) ∧
    (isCMTreeC c = true →
      ∃ r, Convert c = .ok r ∧ r.params.length = leafCountC c ∧
        (r.params.map Prod.fst).Pairwise (· ≠ ·) ∧
        ∀ field op l, c = .mk field op (some (.conds l)) →
          (op = "and" || op = "or") = true →
          ∃ (e : String) (es : List String), r.exprStr = es.foldl (joinExpr op) e ∧
            1 + es.length = CondList.length l ∧ e ≠ "") := by
  constructor
  · intro r hnb hok
    unfold Convert at hok
    cases hc : convertCondition c 0 with
    | error e => rw [hc] at hok; simp [Except.map] at hok
    | ok p =>
      obtain ⟨r0, k2⟩ := p
      rw [hc] at hok
      simp only [Except.map, Except.ok.injEq] at hok
      subst hok
      exact ((convert_names_aux (sizeOf c)).1 c 0 r0 k2 le_rfl hnb hc).2.2.2.2
  · intro hcm
    have hnb := (cm_noBetween (sizeOf c)).1 c le_rfl hcm
    obtain ⟨r, k2, hok, hexpr, hparen⟩ := (convert_cm_aux (sizeOf c)).1 c 0 le_rfl hcm
    have hp := (convert_names_aux (sizeOf c)).1 c 0 r k2 le_rfl hnb hok
    have hlen := (cm_genNames_length (sizeOf c)).1 c 0 le_rfl hcm
    refine ⟨r, by unfold Convert; rw [hok]; rfl, ?_, hp.2.2.2.2, hparen⟩
    have hkeys : (genNamesC c 0).1 = r.params.map Prod.fst := by rw [hp.2.1]
    rw [hkeys] at hlen
    simpa using hlen

/-- Counterexample to claim C3 as stated: in the accepted tree
`(a_2 eq EQV) and (a between [LO, HI])` the comparison parameter name
`a_2_1` collides with the second `between` parameter name, the generated
names are not pairwise distinct, and the merged map retains only two of the
three bindings, dropping the comparison literal. -/
theorem convert_param_name_collision :
    (genNamesC (.mk "" "and" (some (.conds (.cons (.mk "a_2" "eq" (some (.scalar "EQV")))
        (.cons (.mk "a" "between" (some (.slist ["LO", "HI"]))) .nil))))) 0).1 =
      ["a_2_1", "a_2_0", "a_2_1"] ∧
    ¬ (["a_2_1", "a_2_0", "a_2_1"] : List String).Pairwise (· ≠ ·) ∧
    Convert (.mk "" "and" (some (.conds (.cons (.mk "a_2" "eq" (some (.scalar "EQV")))
        (.cons (.mk "a" "between" (some (.slist ["LO", "HI"]))) .nil))))) =
      .ok ⟨"(a_2 == \x7ba_2_1\x7d) and (a >= \x7ba_2_0\x7d and a <= \x7ba_2_1\x7d)",
        [("a_2_1", .scalar "HI"), ("a_2_0", .scalar "LO")]⟩ :=
  ⟨rfl, by decide, rfl⟩

/-- Witness for the amended C3 at a two-leaf `and` tree on the same field. -/
theorem convert_param_names_amended_witness :
    (([("kb_1", FilterValue.scalar "b1"),
        ("kb_2", FilterValue.slist ["x", "y"])].map Prod.fst).Pairwise (· ≠ ·)) ∧
    (∃ r, Convert (.mk "" "and" (some (.conds (.cons (.mk "kb" "eq" (some (.scalar "b1")))
        (.cons (.mk "kb" "in" (some (.slist ["x", "y"]))) .nil))))) = .ok r ∧
      r.params.length = leafCountC (.mk "" "and" (some (.conds
        (.cons (.mk "kb" "eq" (some (.scalar "b1")))
        (.cons (.mk "kb" "in" (some (.slist ["x", "y"]))) .nil))))) ∧
      (r.params.map Prod.fst).Pairwise (· ≠ ·) ∧
      ∀ field op l, (UniversalFilterCondition.mk "" "and" (some (.conds
          (.cons (.mk "kb" "eq" (some (.scalar "b1")))
          (.cons (.mk "kb" "in" (some (.slist ["x", "y"]))) .nil)))))
            = .mk field op (some (.conds l)) →
        (op = "and" || op = "or") = true →
        ∃ (e : String) (es : List String), r.exprStr = es.foldl (joinExpr op) e ∧
          1 + es.length = CondList.length l ∧ e ≠ "") := by
  have h := convert_param_names_amended (.mk "" "and" (some (.conds
    (.cons (.mk "kb" "eq" (some (.scalar "b1")))
    (.cons (.mk "kb" "in" (some (.slist ["x", "y"]))) .nil)))))
  exact ⟨h.1 ⟨"(kb == \x7bkb_1\x7d) and (kb in \x7bkb_2\x7d)",
    [("kb_1", FilterValue.scalar "b1"), ("kb_2", FilterValue.slist ["x", "y"])]⟩ rfl rfl,
    h.2 rfl⟩


/-!  The Milvus repository, embedded from the repository source over an
abstract store client whose responses are oracle functions.  Each operation
returns its result together with the list of store calls it issued.  The
collaborator record types (`types.IndexInfo`, `types.RetrieveParams`, ...)
are not under src/ and are modelled from the spec, §3; scores and vector
components are modelled as rationals. -/

/-- Modelled from the spec: `types.IndexInfo` (the definition is not under
src/): content text, source identifier, enumerated source type, chunk,
knowledge, knowledge-base and tag identifiers, embedding vector. -/
structure IndexInfo where
  content : String
  sourceID : String
  sourceType : Int
  chunkID : String
  knowledgeID : String
  knowledgeBaseID : String
  tagID : String
  embedding : List Rat
deriving DecidableEq

/-- `MilvusVectorEmbedding`: the stored row. -/
structure MilvusVectorEmbedding where
  id : String
  content : String
  sourceID : String
  sourceType : Int
  chunkID : String
  knowledgeID : String
  knowledgeBaseID : String
  tagID : String
  embedding : List Rat
  isEnabled : Bool
deriving DecidableEq

inductive MatchType where
  | embedding
  | keywords
deriving DecidableEq

inductive RetrieverType where
  | vector
  | keywords
deriving DecidableEq

inductive RetrieverEngineType where
  | milvus
deriving DecidableEq

/-- Modelled from the spec: `types.IndexWithScore` (not under src/): the
record fields plus a similarity score and a match-type tag. -/
structure IndexWithScore where
  id : String
  sourceID : String
  sourceType : Int
  chunkID : String
  knowledgeID : String
  knowledgeBaseID : String
  tagID : String
  content : String
  score : Rat
  matchType : MatchType
deriving DecidableEq

/-- Modelled from the spec: `types.RetrieveResult` (not under src/). -/
structure RetrieveResult where
  results : List IndexWithScore
  retrieverEngineType : RetrieverEngineType
  retrieverType : RetrieverType
  error : Option String
deriving DecidableEq

/-- Modelled from the spec: `types.RetrieveParams` (not under src/). -/
structure RetrieveParams where
  retrieverType : RetrieverType
  query : String
  embedding : List Rat
  topK : Nat
  threshold : Rat
  knowledgeBaseIDs : List String
  knowledgeIDs : List String
  tagIDs : List String
  excludeKnowledgeIDs : List String
  excludeChunkIDs : List String

def fieldContent : String := "content"
def fieldSourceID : String := "source_id"
def fieldChunkID : String := "chunk_id"
def fieldKnowledgeID : String := "knowledge_id"
def fieldKnowledgeBaseID : String := "knowledge_base_id"
def fieldTagID : String := "tag_id"

/-- One store round-trip issued by the repository. -/
inductive StoreCall where
  | hasCollection (name : String)
  | createCollection (name : String)
  | loadCollection (name : String)
  | awaitLoad (name : String)
  | upsert (name : String) (rows : List MilvusVectorEmbedding)
  | deleteByField (name field : String) (ids : List String)
  | listCollections
  | vectorSearch (name : String) (topK : Nat) (expr : String)
  | textSearch (name : String) (topK : Nat) (queryText expr : String)
  | query (name : String) (offset : Nat)
deriving DecidableEq

/-- The abstract store client: each method is an oracle for the outcome the
store reports for that call. -/
structure MilvusClient where
  hasCollection : String → Except String Bool
  createCollection : String → Except String Unit
  loadCollection : String → Except String Unit
  awaitLoad : String → Except String Unit
  upsert : String → Except String Unit
  deleteRows : String → String → List String → Except String Unit
  listCollections : Except String (List String)
  vectorSearch : String → Nat → List Rat → String → List (String × FilterValue) → Rat →
    Except String (List (MilvusVectorEmbedding × Rat))
  textSearch : String → Nat → String → String → List (String × FilterValue) →
    Except String (List (MilvusVectorEmbedding × Rat))

/-- `getCollectionName`: `<baseName>_<dimension>`. -/
def getCollectionName (base : String) (dimension : Nat) : String :=
  base ++ "_" ++ Nat.repr dimension

/-- The load/activate tail of `ensureCollection`: load, await, mark cached. -/
def ensureLoad (cl : MilvusClient) (collectionName : String) (cache : List Nat)
    (dimension : Nat) (pre : List StoreCall) :
    Except String Unit × List Nat × List StoreCall :=
  match cl.loadCollection collectionName with
  | .error e => (.error ("failed to load collection: " ++ e), cache,
      pre ++ [.loadCollection collectionName])
  | .ok () =>
    match cl.awaitLoad collectionName with
    | .error e => (.error ("failed to await load collection: " ++ e), cache,
        pre ++ [.loadCollection collectionName, .awaitLoad collectionName])
    | .ok () => (.ok (), dimension :: cache,
        pre ++ [.loadCollection collectionName, .awaitLoad collectionName])

/-- `ensureCollection`: cache check, existence check, creation when absent
(any creation error is returned as is, wrapped), then load and mark cached. -/
def ensureCollection (cl : MilvusClient) (base : String) (cache : List Nat)
    (dimension : Nat) : Except String Unit × List Nat × List StoreCall :=
  let collectionName := getCollectionName base dimension
  if cache.contains dimension then (.ok (), cache, [])
  else
    match cl.hasCollection collectionName with
    | .error e => (.error ("failed to check collection existence: " ++ e), cache,
        [.hasCollection collectionName])
    | .ok hasCollection =>
      if hasCollection then
        ensureLoad cl collectionName cache dimension [.hasCollection collectionName]
      else
        match cl.createCollection collectionName with
        | .error e => (.error ("failed to create collection: " ++ e), cache,
            [.hasCollection collectionName, .createCollection collectionName])
        | .ok () => ensureLoad cl collectionName cache dimension
            [.hasCollection collectionName, .createCollection collectionName]

/-- `toMilvusVectorEmbedding`: the stored row defaults `isEnabled` to true;
the embedding comes from the `additionalParams` map keyed by source id
(`none` models an absent or ill-typed `embedding` entry, and a missing key
yields the empty vector, as a Go nil slice). -/
def toMilvusVectorEmbedding (e : IndexInfo)
    (additionalParams : Option (List (String × List Rat))) : MilvusVectorEmbedding :=
  { id := ""
    content := e.content
    sourceID := e.sourceID
    sourceType := e.sourceType
    chunkID := e.chunkID
    knowledgeID := e.knowledgeID
    knowledgeBaseID := e.knowledgeBaseID
    tagID := e.tagID
    embedding := match additionalParams with
      | some embeddingMap => (embeddingMap.lookup e.sourceID).getD []
      | none => []
    isEnabled := true }

/-- `fromMilvusVectorEmbedding`, with the score the caller assigned. -/
def fromMilvusVectorEmbedding (id : String) (e : MilvusVectorEmbedding)
    (score : Rat) (matchType : MatchType) : IndexWithScore :=
  { id := id
    sourceID := e.sourceID
    sourceType := e.sourceType
    chunkID := e.chunkID
    knowledgeID := e.knowledgeID
    knowledgeBaseID := e.knowledgeBaseID
    tagID := e.tagID
    content := e.content
    score := score
    matchType := matchType }

/-- `buildRetrieveResult`: one successful result wrapping the list. -/
def buildRetrieveResult (results : List IndexWithScore)
    (retrieverType : RetrieverType) : List RetrieveResult :=
  [{ results := results
     retrieverEngineType := .milvus
     retrieverType := retrieverType
     error := none }]

/-- `Save`: reject an empty embedding, ensure the collection, assign a fresh
identifier, upsert one row.  `uuid` generates fresh identifiers and `uctr`
is the next-generator index. -/
def Save (cl : MilvusClient) (uuid : Nat → String) (base : String)
    (embedding : IndexInfo) (additionalParams : Option (List (String × List Rat)))
    (cache : List Nat) (uctr : Nat) :
    Except String Unit × List Nat × Nat × List StoreCall :=
  let embeddingDB := toMilvusVectorEmbedding embedding additionalParams
  if embeddingDB.embedding.length = 0 then
    (.error ("empty embedding vector for chunk ID: " ++ embedding.chunkID), cache, uctr, [])
  else
    let dimension := embeddingDB.embedding.length
    match ensureCollection cl base cache dimension with
    | (.error e, cache1, tr1) => (.error e, cache1, uctr, tr1)
    | (.ok (), cache1, tr1) =>
      let collectionName := getCollectionName base dimension
      let row := { embeddingDB with id := uuid uctr }
      match cl.upsert collectionName with
      | .error e => (.error e, cache1, uctr + 1, tr1 ++ [.upsert collectionName [row]])
      | .ok () => (.ok (), cache1, uctr + 1, tr1 ++ [.upsert collectionName [row]])

/-- Append a record to its dimension group, keeping first-encounter order. -/
def addGroup : List (Nat × List IndexInfo) → Nat → IndexInfo →
    List (Nat × List IndexInfo)
  | [], d, e => [(d, [e])]
  | (d0, es) :: rest, d, e =>
    if d0 = d then (d0, es ++ [e]) :: rest else (d0, es) :: addGroup rest d e

/-- The grouping loop of `BatchSave`: skip records whose converted embedding
is empty, group the rest by dimension.  (Go map iteration order is
unspecified; the groups are modelled in first-encounter order.) -/
def groupByDimension (embeddingList : List IndexInfo)
    (additionalParams : Option (List (String × List Rat))) :
    List (Nat × List IndexInfo) :=
  embeddingList.foldl (fun acc e =>
    let db := toMilvusVectorEmbedding e additionalParams
    if db.embedding.length = 0 then acc
    else addGroup acc db.embedding.length e) []

/-- Convert one group, assigning consecutive fresh identifiers. -/
def buildRows (uuid : Nat → String)
    (additionalParams : Option (List (String × List Rat))) :
    List IndexInfo → Nat → List MilvusVectorEmbedding
  | [], _ => []
  | e :: rest, uctr =>
    { toMilvusVectorEmbedding e additionalParams with id := uuid uctr } ::
      buildRows uuid additionalParams rest (uctr + 1)

/-- The per-group loop of `BatchSave`: ensure the collection, build the rows,
issue one batched upsert; a failure aborts the remaining groups. -/
def batchSaveLoop (cl : MilvusClient) (uuid : Nat → String) (base : String)
    (additionalParams : Option (List (String × List Rat))) :
    List (Nat × List IndexInfo) → List Nat → Nat →
    Except String Unit × List Nat × Nat × List StoreCall
  | [], cache, uctr => (.ok (), cache, uctr, [])
  | (dimension, embeddings) :: rest, cache, uctr =>
    match ensureCollection cl base cache dimension with
    | (.error e, cache1, tr1) => (.error e, cache1, uctr, tr1)
    | (.ok (), cache1, tr1) =>
      let collectionName := getCollectionName base dimension
      let rows := buildRows uuid additionalParams embeddings uctr
      let uctr1 := uctr + embeddings.length
      match cl.upsert collectionName with
      | .error e =>
        (.error ("failed to batch save (dimension " ++ Nat.repr dimension ++ "): " ++ e),
          cache1, uctr1, tr1 ++ [.upsert collectionName rows])
      | .ok () =>
        match batchSaveLoop cl uuid base additionalParams rest cache1 uctr1 with
        | (r2, cache2, uctr2, tr2) =>
          (r2, cache2, uctr2, tr1 ++ [.upsert collectionName rows] ++ tr2)

/-- `BatchSave`. -/
def BatchSave (cl : MilvusClient) (uuid : Nat → String) (base : String)
    (embeddingList : List IndexInfo)
    (additionalParams : Option (List (String × List Rat)))
    (cache : List Nat) (uctr : Nat) :
    Except String Unit × List Nat × Nat × List StoreCall :=
  if embeddingList.length = 0 then (.ok (), cache, uctr, [])
  else
    let groups := groupByDimension embeddingList additionalParams
    if groups.length = 0 then (.ok (), cache, uctr, [])
    else batchSaveLoop cl uuid base additionalParams groups cache uctr

/-- `DeleteByChunkIDList`: empty list is a successful no-op. -/
def DeleteByChunkIDList (cl : MilvusClient) (base : String)
    (chunkIDList : List String) (dimension : Nat) (knowledgeType : String) :
    Except String Unit × List StoreCall :=
  if chunkIDList.length = 0 then (.ok (), [])
  else
    let collectionName := getCollectionName base dimension
    match cl.deleteRows collectionName fieldChunkID chunkIDList with
    | .error e => (.error ("failed to delete by chunk IDs: " ++ e),
        [.deleteByField collectionName fieldChunkID chunkIDList])
    | .ok () => (.ok (), [.deleteByField collectionName fieldChunkID chunkIDList])

/-- `DeleteByKnowledgeIDList`: empty list is a successful no-op. -/
def DeleteByKnowledgeIDList (cl : MilvusClient) (base : String)
    (knowledgeIDList : List String) (dimension : Nat) (knowledgeType : String) :
    Except String Unit × List StoreCall :=
  if knowledgeIDList.length = 0 then (.ok (), [])
  else
    let collectionName := getCollectionName base dimension
    match cl.deleteRows collectionName fieldKnowledgeID knowledgeIDList with
    | .error e => (.error ("failed to delete by knowledge IDs: " ++ e),
        [.deleteByField collectionName fieldKnowledgeID knowledgeIDList])
    | .ok () => (.ok (), [.deleteByField collectionName fieldKnowledgeID knowledgeIDList])

/-- `DeleteBySourceIDList`: empty list is a successful no-op. -/
def DeleteBySourceIDList (cl : MilvusClient) (base : String)
    (sourceIDList : List String) (dimension : Nat) (knowledgeType : String) :
    Except String Unit × List StoreCall :=
  if sourceIDList.length = 0 then (.ok (), [])
  else
    let collectionName := getCollectionName base dimension
    match cl.deleteRows collectionName fieldSourceID sourceIDList with
    | .error e => (.error ("failed to delete by source IDs: " ++ e),
        [.deleteByField collectionName fieldSourceID sourceIDList])
    | .ok () => (.ok (), [.deleteByField collectionName fieldSourceID sourceIDList])

def toCondList : List UniversalFilterCondition → CondList
  | [] => .nil
  | c :: t => .cons c (toCondList t)

/-- The optional base-filter conditions of `getBaseFilterForQuery`, one
membership condition per non-empty id list. -/
def baseFilters (params : RetrieveParams) : List UniversalFilterCondition :=
  (if 0 < params.knowledgeBaseIDs.length then
    [.mk fieldKnowledgeBaseID "in" (some (.slist params.knowledgeBaseIDs))] else []) ++
  (if 0 < params.knowledgeIDs.length then
    [.mk fieldKnowledgeID "in" (some (.slist params.knowledgeIDs))] else []) ++
  (if 0 < params.tagIDs.length then
    [.mk fieldTagID "in" (some (.slist params.tagIDs))] else []) ++
  (if 0 < params.excludeKnowledgeIDs.length then
    [.mk fieldKnowledgeID "not in" (some (.slist params.excludeKnowledgeIDs))] else []) ++
  (if 0 < params.excludeChunkIDs.length then
    [.mk fieldChunkID "not in" (some (.slist params.excludeChunkIDs))] else [])

/-- `getBaseFilterForQuery`: AND together whichever inclusion/exclusion id
lists are non-empty; no filters means an empty expression. -/
def getBaseFilterForQuery (params : RetrieveParams) :
    Except String (String × List (String × FilterValue)) :=
  if (baseFilters params).length = 0 then .ok ("", [])
  else
    match Convert (.mk "" "and" (some (.conds (toCondList (baseFilters params))))) with
    | .error e => .error e
    | .ok f => .ok (f.exprStr, f.params)

/-- `VectorRetrieve`: dimension from the query embedding; an absent
collection yields an empty successful result. -/
def VectorRetrieve (cl : MilvusClient) (base : String) (params : RetrieveParams) :
    Except String (List RetrieveResult) × List StoreCall :=
  let dimension := params.embedding.length
  let collectionName := getCollectionName base dimension
  match cl.hasCollection collectionName with
  | .error e => (.error ("failed to check collection: " ++ e),
      [.hasCollection collectionName])
  | .ok hasCollection =>
    if !hasCollection then
      (.ok (buildRetrieveResult [] .vector), [.hasCollection collectionName])
    else
      match getBaseFilterForQuery params with
      | .error e => (.error ("failed to build filter: " ++ e),
          [.hasCollection collectionName])
      | .ok (expr, paramsMap) =>
        match cl.vectorSearch collectionName params.topK params.embedding expr
            paramsMap params.threshold with
        | .error e => (.error ("failed to search: " ++ e),
            [.hasCollection collectionName, .vectorSearch collectionName params.topK expr])
        | .ok rows =>
          let results := rows.map (fun p =>
            fromMilvusVectorEmbedding p.1.id p.1 p.2 .embedding)
          (.ok (buildRetrieveResult results .vector),
            [.hasCollection collectionName, .vectorSearch collectionName params.topK expr])

/-- The loop body of `KeywordsRetrieve`: skip collections not strictly
extending the base name; build the base filter (skip the collection on
failure); search the sparse content field (skip on failure); append each
match with the constant score 1.0 tagged as keyword-matched. -/
def keywordsStep (cl : MilvusClient) (base : String) (params : RetrieveParams)
    (acc : List IndexWithScore × List StoreCall) (collectionName : String) :
    List IndexWithScore × List StoreCall :=
  if collectionName.length ≤ base.length || !(base.isPrefixOf collectionName) then acc
  else
    match getBaseFilterForQuery params with
    | .error _ => acc
    | .ok (expr, paramsMap) =>
      match cl.textSearch collectionName params.topK params.query expr paramsMap with
      | .error _ =>
        (acc.1, acc.2 ++ [.textSearch collectionName params.topK params.query expr])
      | .ok rows =>
        (acc.1 ++ rows.map (fun p =>
          fromMilvusVectorEmbedding p.1.id p.1 1 .keywords),
         acc.2 ++ [.textSearch collectionName params.topK params.query expr])

/-- `KeywordsRetrieve`: fan out over every collection strictly extending the
base name, skip per-collection failures, tag matches with the constant score
1.0, concatenate in enumeration order and truncate to top-K. -/
def KeywordsRetrieve (cl : MilvusClient) (base : String) (params : RetrieveParams) :
    Except String (List RetrieveResult) × List StoreCall :=
  match cl.listCollections with
  | .error e => (.error ("failed to list collections: " ++ e), [.listCollections])
  | .ok collections =>
    let st := collections.foldl (keywordsStep cl base params) ([], [.listCollections])
    let allResults := if st.1.length > params.topK then st.1.take params.topK else st.1
    (.ok (buildRetrieveResult allResults .keywords), st.2)


/-- `strings.HasPrefix`. -/
def strHasPrefix (pre s : String) : Bool := pre.data.isPrefixOf s.data

/-- `strings.TrimPrefix`, applied only after the prefix test succeeded. -/
def strTrimPrefix (s pre : String) : String := ⟨s.data.drop pre.data.length⟩

/-- The per-row remapping of `CopyIndices`: skip a row whose chunk id or
knowledge id is missing from its remap table; derive the target source id
(same as the chunk: the new chunk id; `<chunkId>-<suffix>`: the suffix moved
to the new chunk id; otherwise a fresh identifier); assign a fresh record
identifier; keep content, embedding, tag and enabled flag; set the target
knowledge-base id. -/
def remapSourceID (uuid : Nat → String) (sourceEmbedding : MilvusVectorEmbedding)
    (targetChunkID : String) (uctr : Nat) : String × Nat :=
  if sourceEmbedding.sourceID = sourceEmbedding.chunkID then
    (targetChunkID, uctr)
  else if strHasPrefix (sourceEmbedding.chunkID ++ "-") sourceEmbedding.sourceID then
    (targetChunkID ++ "-" ++
      strTrimPrefix sourceEmbedding.sourceID (sourceEmbedding.chunkID ++ "-"), uctr)
  else (uuid uctr, uctr + 1)

/-- The per-row remap loop of `CopyIndices`: skip a row whose chunk id or
knowledge id has no mapping; otherwise derive the new source id, mint a new
record id, rewrite the knowledge-base id to the target and keep the other
fields. -/
def remapRows (uuid : Nat → String) (chunkMap kbMap : List (String × String))
    (targetKB : String) :
    List MilvusVectorEmbedding → Nat → List MilvusVectorEmbedding × Nat
  | [], uctr => ([], uctr)
  | sourceEmbedding :: rest, uctr =>
    match chunkMap.lookup sourceEmbedding.chunkID with
    | none => remapRows uuid chunkMap kbMap targetKB rest uctr
    | some targetChunkID =>
      match kbMap.lookup sourceEmbedding.knowledgeID with
      | none => remapRows uuid chunkMap kbMap targetKB rest uctr
      | some targetKnowledgeID =>
        let p := remapSourceID uuid sourceEmbedding targetChunkID uctr
        let targetSourceID := p.1
        let uctr1 := p.2
        let row : MilvusVectorEmbedding :=
          { id := uuid uctr1
            content := sourceEmbedding.content
            sourceID := targetSourceID
            sourceType := sourceEmbedding.sourceType
            chunkID := targetChunkID
            knowledgeID := targetKnowledgeID
            knowledgeBaseID := targetKB
            tagID := sourceEmbedding.tagID
            embedding := sourceEmbedding.embedding
            isEnabled := sourceEmbedding.isEnabled }
        match remapRows uuid chunkMap kbMap targetKB rest (uctr1 + 1) with
        | (rows, uctr2) => (row :: rows, uctr2)

/-- The store contract for the paginated filtered read (`searchByFilter` with
the `knowledge_base_id == source` filter): the matching rows sliced by
offset/limit, and the page row count. -/
def searchPage (stored : List MilvusVectorEmbedding) (srcKB : String)
    (limit offset : Nat) : List MilvusVectorEmbedding × Nat :=
  let matched := stored.filter (fun r => r.knowledgeBaseID = srcKB)
  let page := (matched.drop offset).take limit
  (page, page.length)

/-- The pagination loop of `CopyIndices` with the fixed page size 64: read a
page, remap it, upsert the non-empty batch, stop when a page is shorter than
the page size, otherwise advance the offset by the returned count. -/
def copyLoop (cl : MilvusClient) (uuid : Nat → String) (collectionName : String)
    (stored : List MilvusVectorEmbedding) (srcKB : String)
    (chunkMap kbMap : List (String × String)) (targetKB : String)
    (offset uctr : Nat) : Except String Unit × Nat × List StoreCall :=
  let pageRes := searchPage stored srcKB 64 offset
  let sourceEmbeddings := pageRes.1
  let count := pageRes.2
  let tr0 := [StoreCall.query collectionName offset]
  if sourceEmbeddings.length = 0 then (.ok (), uctr, tr0)
  else
    let remapped := remapRows uuid chunkMap kbMap targetKB sourceEmbeddings uctr
    let targetEmbeddings := remapped.1
    let uctr1 := remapped.2
    if 0 < targetEmbeddings.length then
      match cl.upsert collectionName with
      | .error e => (.error e, uctr1, tr0 ++ [.upsert collectionName targetEmbeddings])
      | .ok () =>
        if count < 64 then
          (.ok (), uctr1, tr0 ++ [.upsert collectionName targetEmbeddings])
        else
          match copyLoop cl uuid collectionName stored srcKB chunkMap kbMap targetKB
              (offset + count) uctr1 with
          | (r3, uctr3, tr3) =>
            (r3, uctr3, tr0 ++ [.upsert collectionName targetEmbeddings] ++ tr3)
    else
      if count < 64 then (.ok (), uctr1, tr0)
      else
        match copyLoop cl uuid collectionName stored srcKB chunkMap kbMap targetKB
            (offset + count) uctr1 with
        | (r3, uctr3, tr3) => (r3, uctr3, tr0 ++ tr3)
termination_by (stored.filter (fun r => r.knowledgeBaseID = srcKB)).length - offset
decreasing_by
  all_goals
    have h2 : count =
        (((stored.filter (fun r => r.knowledgeBaseID = srcKB)).drop offset).take 64).length := rfl
    rw [List.length_take, List.length_drop] at h2
    have h3 : (searchPage stored srcKB 64 offset).2 = count := rfl
    rw [h3]
    omega

/-- `CopyIndices`: empty chunk-id map is a no-op; otherwise ensure the
dimension collection and run the pagination loop over the source rows. -/
def CopyIndices (cl : MilvusClient) (uuid : Nat → String) (base : String)
    (sourceKnowledgeBaseID : String)
    (sourceToTargetKBIDMap sourceToTargetChunkIDMap : List (String × String))
    (targetKnowledgeBaseID : String) (dimension : Nat)
    (stored : List MilvusVectorEmbedding) (cache : List Nat) (uctr : Nat) :
    Except String Unit × List Nat × Nat × List StoreCall :=
  if sourceToTargetChunkIDMap.length = 0 then (.ok (), cache, uctr, [])
  else
    let collectionName := getCollectionName base dimension
    match ensureCollection cl base cache dimension with
    | (.error e, cache1, tr1) => (.error e, cache1, uctr, tr1)
    | (.ok (), cache1, tr1) =>
      match copyLoop cl uuid collectionName stored sourceKnowledgeBaseID
          sourceToTargetChunkIDMap sourceToTargetKBIDMap targetKnowledgeBaseID 0 uctr with
      | (r2, uctr2, tr2) => (r2, cache1, uctr2, tr1 ++ tr2)

/-- `calculateStorageSize`: byte lengths of the content, source-id, chunk-id,
knowledge-id and knowledge-base-id strings, 8 bytes for the int64 source
type, 4 bytes per vector component, the IVF index heuristic
`dimensions * (nlist*4 + 4)` with `nlist = 16384`, and 32 metadata bytes. -/
def calculateStorageSize (embedding : MilvusVectorEmbedding) : Int :=
  let payloadSizeBytes : Int :=
    (embedding.content.utf8ByteSize : Int) + (embedding.sourceID.utf8ByteSize : Int) +
    (embedding.chunkID.utf8ByteSize : Int) + (embedding.knowledgeID.utf8ByteSize : Int) +
    (embedding.knowledgeBaseID.utf8ByteSize : Int) + 8
  let vectorAndIndex : Int × Int :=
    if embedding.embedding ≠ [] then
      ((embedding.embedding.length : Int) * 4,
        (embedding.embedding.length : Int) * (16384 * 4 + 4))
    else (0, 0)
  payloadSizeBytes + vectorAndIndex.1 + vectorAndIndex.2 + 32

/-- `EstimateStorageSize`: the sum over the converted records. -/
def EstimateStorageSize (indexInfoList : List IndexInfo)
    (additionalParams : Option (List (String × List Rat))) : Int :=
  indexInfoList.foldl (fun acc e =>
    acc + calculateStorageSize (toMilvusVectorEmbedding e additionalParams)) 0


/-- A client for which every call succeeds and the collection exists. -/
def happyClient : MilvusClient :=
  { hasCollection := fun _ => .ok true
    createCollection := fun _ => .ok ()
    loadCollection := fun _ => .ok ()
    awaitLoad := fun _ => .ok ()
    upsert := fun _ => .ok ()
    deleteRows := fun _ _ _ => .ok ()
    listCollections := .ok []
    vectorSearch := fun _ _ _ _ _ _ => .ok []
    textSearch := fun _ _ _ _ _ => .ok [] }

/-- A conflict-reporting client: the collection is absent, creation fails
with an already-exists error, loading would succeed. -/
def conflictClient : MilvusClient :=
  { hasCollection := fun _ => .ok false
    createCollection := fun _ => .error "collection already exists"
    loadCollection := fun _ => .ok ()
    awaitLoad := fun _ => .ok ()
    upsert := fun _ => .ok ()
    deleteRows := fun _ _ _ => .ok ()
    listCollections := .ok []
    vectorSearch := fun _ _ _ _ _ _ => .ok []
    textSearch := fun _ _ _ _ _ => .ok [] }

/-- Counterexample to claim C2: with the collection absent and the store
reporting an already-exists conflict on creation, `ensureCollection` returns
the wrapped creation error, never issues a load call, and leaves the cache
unchanged — the conflict is not treated as success. -/
theorem ensureCollection_conflict_not_success :
    ensureCollection conflictClient "weknora_embeddings" [] 4 =
      (.error "failed to create collection: collection already exists", [],
        [.hasCollection "weknora_embeddings_4",
         .createCollection "weknora_embeddings_4"]) := rfl

/-- Claim C2 (amended): on a cache miss with the store reporting the
collection absent, `ensureCollection` surfaces every creation failure —
an already-exists conflict included — as a wrapped error; it does not load
the collection and does not mark the dimension as initialized. -/
theorem ensureCollection_create_error (cl : MilvusClient) (base : String)
    (cache : List Nat) (dimension : Nat) (e : String)
    (hc : cache.contains dimension = false)
    (hhas : cl.hasCollection (getCollectionName base dimension) = .ok false)
    (hcr : cl.createCollection (getCollectionName base dimension) = .error e) :
    ensureCollection cl base cache dimension =
      (.error ("failed to create collection: " ++ e), cache,
        [.hasCollection (getCollectionName base dimension),
         .createCollection (getCollectionName base dimension)]) := by
  unfold ensureCollection
  dsimp only
  rw [hc, hhas, hcr]
  rfl

/-- Witness for the amended C2 at the conflict client. -/
theorem ensureCollection_create_error_witness :
    ensureCollection conflictClient "wk" [] 8 =
      (.error ("failed to create collection: " ++ "collection already exists"), [],
        [.hasCollection (getCollectionName "wk" 8),
         .createCollection (getCollectionName "wk" 8)]) :=
  ensureCollection_create_error conflictClient "wk" [] 8
    "collection already exists" rfl rfl rfl

/-- Claim C4: when the collection named for the query embedding dimension
does not exist, `VectorRetrieve` returns a successful result wrapping an
empty result list (after only the existence check), not an error. -/
theorem vectorRetrieve_absent_collection (cl : MilvusClient) (base : String)
    (params : RetrieveParams)
    (h : cl.hasCollection (getCollectionName base params.embedding.length) = .ok false) :
    VectorRetrieve cl base params =
      (.ok [{ results := []
              retrieverEngineType := .milvus
              retrieverType := .vector
              error := none }],
        [.hasCollection (getCollectionName base params.embedding.length)]) := by
  unfold VectorRetrieve
  dsimp only
  rw [h]
  rfl

/-- Witness for C4: a client without the collection. -/
theorem vectorRetrieve_absent_collection_witness :
    VectorRetrieve conflictClient "wk"
      { retrieverType := .vector
        query := ""
        embedding := [1, 2, 3]
        topK := 5
        threshold := 0
        knowledgeBaseIDs := []
        knowledgeIDs := []
        tagIDs := []
        excludeKnowledgeIDs := []
        excludeChunkIDs := [] } =
      (.ok [{ results := []
              retrieverEngineType := .milvus
              retrieverType := .vector
              error := none }],
        [.hasCollection (getCollectionName "wk" 3)]) :=
  vectorRetrieve_absent_collection conflictClient "wk" _ rfl

/-- Claim C9: each delete variant is a successful no-op on an empty id list:
no store call is issued. -/
theorem delete_empty_id_list_noop (cl : MilvusClient) (base : String)
    (dimension : Nat) (knowledgeType : String) :
    DeleteByChunkIDList cl base [] dimension knowledgeType = (.ok (), []) ∧
    DeleteByKnowledgeIDList cl base [] dimension knowledgeType = (.ok (), []) ∧
    DeleteBySourceIDList cl base [] dimension knowledgeType = (.ok (), []) :=
  ⟨rfl, rfl, rfl⟩

/-- The storage size named by claim C8: the byte lengths of all of the
record's variable-length string fields (id, content, source id, chunk id,
knowledge id, knowledge-base id, tag id) plus the same fixed costs. -/
def claimedStorageSize (e : MilvusVectorEmbedding) : Int :=
  (e.id.utf8ByteSize : Int) + (e.content.utf8ByteSize : Int) +
  (e.sourceID.utf8ByteSize : Int) + (e.chunkID.utf8ByteSize : Int) +
  (e.knowledgeID.utf8ByteSize : Int) + (e.knowledgeBaseID.utf8ByteSize : Int) +
  (e.tagID.utf8ByteSize : Int) + 8 +
  4 * (e.embedding.length : Int) + (e.embedding.length : Int) * (16384 * 4 + 4) + 32

/-- Counterexample to claim C8: on a record whose only non-empty string
field is the tag id, the estimator returns 40 while the claimed sum over the
record's variable-length string fields gives 41 — the tag id (and the id)
are not part of the estimator's sum. -/
theorem calculateStorageSize_omits_tag :
    calculateStorageSize
      { id := "", content := "", sourceID := "", sourceType := 0, chunkID := "",
        knowledgeID := "", knowledgeBaseID := "", tagID := "t", embedding := [],
        isEnabled := true } = 40 ∧
    claimedStorageSize
      { id := "", content := "", sourceID := "", sourceType := 0, chunkID := "",
        knowledgeID := "", knowledgeBaseID := "", tagID := "t", embedding := [],
        isEnabled := true } = 41 := by
  constructor <;> rfl

/-- Claim C8 (amended): the estimator is a pure function of the record equal
to the sum of the byte lengths of the content, source-id, chunk-id,
knowledge-id and knowledge-base-id strings (the id and tag-id strings are
not counted), plus 8 bytes for the numeric source type, 4 bytes per vector
component, the index heuristic `dimension * (nlist*4 + 4)` with
`nlist = 16384`, plus a fixed 32-byte per-row constant. -/
theorem calculateStorageSize_formula (e : MilvusVectorEmbedding) :
    calculateStorageSize e =
      (e.content.utf8ByteSize : Int) + (e.sourceID.utf8ByteSize : Int) +
      (e.chunkID.utf8ByteSize : Int) + (e.knowledgeID.utf8ByteSize : Int) +
      (e.knowledgeBaseID.utf8ByteSize : Int) + 8 +
      4 * (e.embedding.length : Int) +
      (e.embedding.length : Int) * (16384 * 4 + 4) + 32 := by
  unfold calculateStorageSize
  by_cases h : e.embedding = []
  · simp [h]
  · simp only [h, ne_eq, not_false_eq_true, if_true]
    ring


theorem ensure_no_upsert (cl : MilvusClient) (base : String) (cache : List Nat)
    (dimension : Nat) (name : String) (rows : List MilvusVectorEmbedding) :
    StoreCall.upsert name rows ∉ (ensureCollection cl base cache dimension).2.2 := by
  unfold ensureCollection ensureLoad
  dsimp only
  by_cases hc : dimension ∈ cache
  · simp [hc]
  · rw [if_neg (fun h => hc (by simpa using h))]
    cases cl.hasCollection (getCollectionName base dimension) with
    | error e => simp
    | ok b =>
      cases b with
      | false =>
        simp only [Bool.false_eq_true, if_false]
        cases cl.createCollection (getCollectionName base dimension) with
        | error e => simp
        | ok u =>
          cases u
          cases cl.loadCollection (getCollectionName base dimension) with
          | error e => simp
          | ok u2 =>
            cases u2
            cases cl.awaitLoad (getCollectionName base dimension) with
            | error e => simp
            | ok u3 => cases u3; simp
      | true =>
        simp only [if_true]
        cases cl.loadCollection (getCollectionName base dimension) with
        | error e => simp
        | ok u2 =>
          cases u2
          cases cl.awaitLoad (getCollectionName base dimension) with
          | error e => simp
          | ok u3 => cases u3; simp

theorem buildRows_enabled (uuid : Nat → String)
    (additionalParams : Option (List (String × List Rat))) :
    ∀ (es : List IndexInfo) (uctr : Nat) (r : MilvusVectorEmbedding),
    r ∈ buildRows uuid additionalParams es uctr → r.isEnabled = true := by
  intro es
  induction es with
  | nil => intro uctr r hr; simp [buildRows] at hr
  | cons e t ih =>
    intro uctr r hr
    rw [buildRows] at hr
    rcases List.mem_cons.mp hr with hr1 | hr1
    · rw [hr1]; rfl
    · exact ih (uctr + 1) r hr1

theorem batchSaveLoop_upsert_enabled (cl : MilvusClient) (uuid : Nat → String)
    (base : String) (additionalParams : Option (List (String × List Rat))) :
    ∀ (groups : List (Nat × List IndexInfo)) (cache : List Nat) (uctr : Nat)
      (name : String) (rows : List MilvusVectorEmbedding),
    StoreCall.upsert name rows ∈
      (batchSaveLoop cl uuid base additionalParams groups cache uctr).2.2.2 →
    ∀ r ∈ rows, r.isEnabled = true := by
  intro groups
  induction groups with
  | nil => intro cache uctr name rows hmem; simp [batchSaveLoop] at hmem
  | cons g rest ih =>
    intro cache uctr name rows hmem
    obtain ⟨dimension, embeddings⟩ := g
    rw [batchSaveLoop] at hmem
    rcases hens : ensureCollection cl base cache dimension with ⟨r1, cache1, tr1⟩
    rw [hens] at hmem
    cases r1 with
    | error e =>
      dsimp only at hmem
      have := ensure_no_upsert cl base cache dimension name rows
      rw [hens] at this
      exact absurd hmem this
    | ok u =>
      cases u
      dsimp only at hmem
      cases hup : cl.upsert (getCollectionName base dimension) with
      | error e =>
        rw [hup] at hmem
        dsimp only at hmem
        rcases List.mem_append.mp hmem with hm | hm
        · have := ensure_no_upsert cl base cache dimension name rows
          rw [hens] at this
          exact absurd hm this
        · have hrows : rows = buildRows uuid additionalParams embeddings uctr := by
            have := List.mem_singleton.mp hm
            injection this with h1 h2
          intro r hr
          rw [hrows] at hr
          exact buildRows_enabled uuid additionalParams embeddings uctr r hr
      | ok u2 =>
        cases u2
        rw [hup] at hmem
        dsimp only at hmem
        rcases hloop : batchSaveLoop cl uuid base additionalParams rest cache1
            (uctr + embeddings.length) with ⟨r2, cache2, uctr2, tr2⟩
        rw [hloop] at hmem
        dsimp only at hmem
        rcases List.mem_append.mp hmem with hm | hm
        · rcases List.mem_append.mp hm with hm2 | hm2
          · have := ensure_no_upsert cl base cache dimension name rows
            rw [hens] at this
            exact absurd hm2 this
          · have hrows : rows = buildRows uuid additionalParams embeddings uctr := by
              have hsing := List.mem_singleton.mp hm2
              simp only [StoreCall.upsert.injEq] at hsing
              exact hsing.2
            intro r hr
            rw [hrows] at hr
            exact buildRows_enabled uuid additionalParams embeddings uctr r hr
        · have := ih cache1 (uctr + embeddings.length) name rows (by rw [hloop]; exact hm)
          exact this

/-- Claim C10: the conversion to a stored row unconditionally sets the
enabled flag, so every row upserted by `Save` or `BatchSave` is enabled:
the write path cannot create a disabled record. -/
theorem write_path_rows_enabled :
    (∀ (e : IndexInfo) (additionalParams : Option (List (String × List Rat))),
      (toMilvusVectorEmbedding e additionalParams).isEnabled = true) ∧
    (∀ (cl : MilvusClient) (uuid : Nat → String) (base : String) (e : IndexInfo)
      (additionalParams : Option (List (String × List Rat))) (cache : List Nat)
      (uctr : Nat) (name : String) (rows : List MilvusVectorEmbedding),
      StoreCall.upsert name rows ∈
        (Save cl uuid base e additionalParams cache uctr).2.2.2 →
      ∀ r ∈ rows, r.isEnabled = true) ∧
    (∀ (cl : MilvusClient) (uuid : Nat → String) (base : String)
      (embeddingList : List IndexInfo)
      (additionalParams : Option (List (String × List Rat))) (cache : List Nat)
      (uctr : Nat) (name : String) (rows : List MilvusVectorEmbedding),
      StoreCall.upsert name rows ∈
        (BatchSave cl uuid base embeddingList additionalParams cache uctr).2.2.2 →
      ∀ r ∈ rows, r.isEnabled = true) := by
  refine ⟨fun e ap => rfl, ?_, ?_⟩
  · intro cl uuid base e additionalParams cache uctr name rows hmem r hr
    unfold Save at hmem
    by_cases hemp : (toMilvusVectorEmbedding e additionalParams).embedding.length = 0
    · simp [hemp] at hmem
    · simp only [hemp, if_false] at hmem
      rcases hens : ensureCollection cl base cache
          (toMilvusVectorEmbedding e additionalParams).embedding.length with ⟨r1, cache1, tr1⟩
      rw [hens] at hmem
      cases r1 with
      | error e2 =>
        dsimp only at hmem
        have := ensure_no_upsert cl base cache
          (toMilvusVectorEmbedding e additionalParams).embedding.length name rows
        rw [hens] at this
        exact absurd hmem this
      | ok u =>
        cases u
        dsimp only at hmem
        have hsplit : StoreCall.upsert name rows ∈ tr1 ∨
            rows = [{ toMilvusVectorEmbedding e additionalParams with id := uuid uctr }] := by
          cases hup : cl.upsert (getCollectionName base
              (toMilvusVectorEmbedding e additionalParams).embedding.length) with
          | error e2 =>
            rw [hup] at hmem
            dsimp only at hmem
            rcases List.mem_append.mp hmem with hm | hm
            · exact Or.inl hm
            · have hsing := List.mem_singleton.mp hm
              injection hsing with h1 h2
              exact Or.inr h2
          | ok u2 =>
            cases u2
            rw [hup] at hmem
            dsimp only at hmem
            rcases List.mem_append.mp hmem with hm | hm
            · exact Or.inl hm
            · have hsing := List.mem_singleton.mp hm
              injection hsing with h1 h2
              exact Or.inr h2
        rcases hsplit with hm | hm
        · have := ensure_no_upsert cl base cache
            (toMilvusVectorEmbedding e additionalParams).embedding.length name rows
          rw [hens] at this
          exact absurd hm this
        · rw [hm] at hr
          have := List.mem_singleton.mp hr
          rw [this]
          rfl
  · intro cl uuid base embeddingList additionalParams cache uctr name rows hmem r hr
    unfold BatchSave at hmem
    by_cases h0 : embeddingList.length = 0
    · simp [h0] at hmem
    · simp only [h0, if_false] at hmem
      by_cases h1 : (groupByDimension embeddingList additionalParams).length = 0
      · simp [h1] at hmem
      · simp only [h1, if_false] at hmem
        exact batchSaveLoop_upsert_enabled cl uuid base additionalParams
          (groupByDimension embeddingList additionalParams) cache uctr name rows hmem r hr

/-- Witness for C10 at a concrete record, client and generator. -/
theorem write_path_rows_enabled_witness :
    (toMilvusVectorEmbedding
      { content := "c", sourceID := "s", sourceType := 1, chunkID := "ck",
        knowledgeID := "k", knowledgeBaseID := "kb", tagID := "t",
        embedding := [1] } (some [("s", [1])])).isEnabled = true ∧
    ({ id := "u0", content := "c", sourceID := "s", sourceType := 1, chunkID := "ck",
       knowledgeID := "k", knowledgeBaseID := "kb", tagID := "t", embedding := [1],
       isEnabled := true } : MilvusVectorEmbedding).isEnabled = true := by
  constructor
  · exact write_path_rows_enabled.1
      { content := "c", sourceID := "s", sourceType := 1, chunkID := "ck",
        knowledgeID := "k", knowledgeBaseID := "kb", tagID := "t",
        embedding := [1] } (some [("s", [1])])
  · exact write_path_rows_enabled.2.1 happyClient (fun n => "u" ++ Nat.repr n) "wk"
      { content := "c", sourceID := "s", sourceType := 1, chunkID := "ck",
        knowledgeID := "k", knowledgeBaseID := "kb", tagID := "t",
        embedding := [1] } (some [("s", [1])]) [] 0 "wk_1"
      [{ id := "u0", content := "c", sourceID := "s", sourceType := 1, chunkID := "ck",
         knowledgeID := "k", knowledgeBaseID := "kb", tagID := "t", embedding := [1],
         isEnabled := true }] (by decide)
      { id := "u0", content := "c", sourceID := "s", sourceType := 1, chunkID := "ck",
        knowledgeID := "k", knowledgeBaseID := "kb", tagID := "t", embedding := [1],
        isEnabled := true } (by decide)


theorem isCMTreeC_in_slist (f : String) (hf : ¬(f = "")) (op : String)
    (hop : op = "in" ∨ op = "not in") (ids : List String) (h : 0 < ids.length) :
    isCMTreeC (.mk f op (some (.slist ids))) = true := by
  rw [isCMTreeC.eq_def]
  rcases hop with rfl | rfl <;> simp [hf, h, isComparisonOperatorName]

theorem baseFilters_all_cm (params : RetrieveParams) :
    ∀ c ∈ baseFilters params, isCMTreeC c = true := by
  intro c hc
  unfold baseFilters at hc
  simp only [List.mem_append] at hc
  rcases hc with ((((hc | hc) | hc) | hc) | hc)
  · by_cases h : 0 < params.knowledgeBaseIDs.length
    · rw [if_pos h] at hc
      rw [List.mem_singleton.mp hc]
      exact isCMTreeC_in_slist _ (by decide) _ (Or.inl rfl) _ h
    · rw [if_neg h] at hc
      exact absurd hc (List.not_mem_nil c)
  · by_cases h : 0 < params.knowledgeIDs.length
    · rw [if_pos h] at hc
      rw [List.mem_singleton.mp hc]
      exact isCMTreeC_in_slist _ (by decide) _ (Or.inl rfl) _ h
    · rw [if_neg h] at hc
      exact absurd hc (List.not_mem_nil c)
  · by_cases h : 0 < params.tagIDs.length
    · rw [if_pos h] at hc
      rw [List.mem_singleton.mp hc]
      exact isCMTreeC_in_slist _ (by decide) _ (Or.inl rfl) _ h
    · rw [if_neg h] at hc
      exact absurd hc (List.not_mem_nil c)
  · by_cases h : 0 < params.excludeKnowledgeIDs.length
    · rw [if_pos h] at hc
      rw [List.mem_singleton.mp hc]
      exact isCMTreeC_in_slist _ (by decide) _ (Or.inr rfl) _ h
    · rw [if_neg h] at hc
      exact absurd hc (List.not_mem_nil c)
  · by_cases h : 0 < params.excludeChunkIDs.length
    · rw [if_pos h] at hc
      rw [List.mem_singleton.mp hc]
      exact isCMTreeC_in_slist _ (by decide) _ (Or.inr rfl) _ h
    · rw [if_neg h] at hc
      exact absurd hc (List.not_mem_nil c)

theorem toCondList_CM : ∀ l : List UniversalFilterCondition,
    (∀ c ∈ l, isCMTreeC c = true) → isCMTreeL (toCondList l) = true := by
  intro l
  induction l with
  | nil => intro _; rfl
  | cons c t ih =>
    intro h
    rw [toCondList, isCMTreeL.eq_def]
    dsimp only
    rw [h c (List.mem_cons_self c t), ih (fun x hx => h x (List.mem_cons_of_mem c hx))]
    rfl

/-- The base filter always compiles: each optional condition is a valid
membership condition on a constant field with a non-empty id list. -/
theorem getBaseFilterForQuery_ok (params : RetrieveParams) :
    ∃ expr pm, getBaseFilterForQuery params = .ok (expr, pm) := by
  unfold getBaseFilterForQuery
  by_cases h : (baseFilters params).length = 0
  · rw [if_pos h]
    exact ⟨"", [], rfl⟩
  · rw [if_neg h]
    cases hbf : baseFilters params with
    | nil => rw [hbf] at h; simp at h
    | cons c0 t =>
      have hall : ∀ c ∈ c0 :: t, isCMTreeC c = true := by
        rw [← hbf]; exact baseFilters_all_cm params
      have hLcm : isCMTreeL (toCondList (c0 :: t)) = true := toCondList_CM _ hall
      have hcm : isCMTreeC (.mk "" "and"
          (some (.conds (toCondList (c0 :: t))))) = true := by
        rw [isCMTreeC.eq_def, toCondList]
        rw [toCondList] at hLcm
        dsimp only
        rw [if_pos (by decide)]
        simp [hLcm]
      obtain ⟨r, k2, hok, -, -⟩ := (convert_cm_aux (sizeOf (UniversalFilterCondition.mk ""
        "and" (some (.conds (toCondList (c0 :: t))))))).1 _ 0 le_rfl hcm
      have hconv : Convert (.mk "" "and" (some (.conds (toCondList (c0 :: t)))))
          = .ok r := by
        unfold Convert
        rw [hok]
        rfl
      rw [hconv]
      exact ⟨r.exprStr, r.params, rfl⟩

theorem keywordsStep_foldl (cl : MilvusClient) (base : String)
    (params : RetrieveParams) (expr : String) (pm : List (String × FilterValue))
    (rows : String → List (MilvusVectorEmbedding × Rat))
    (hbase : getBaseFilterForQuery params = .ok (expr, pm))
    (hsearch : ∀ n, cl.textSearch n params.topK params.query expr pm = .ok (rows n)) :
    ∀ (cols : List String) (acc : List IndexWithScore × List StoreCall),
    cols.foldl (keywordsStep cl base params) acc =
      (acc.1 ++ (cols.filter (fun n => decide (base.length < n.length) &&
          base.isPrefixOf n)).flatMap
        (fun n => (rows n).map (fun p => fromMilvusVectorEmbedding p.1.id p.1 1 .keywords)),
       acc.2 ++ (cols.filter (fun n => decide (base.length < n.length) &&
          base.isPrefixOf n)).map
        (fun n => .textSearch n params.topK params.query expr)) := by
  intro cols
  induction cols with
  | nil => intro acc; simp
  | cons n t ih =>
    intro acc
    rw [List.foldl_cons]
    by_cases hgood : (decide (base.length < n.length) && base.isPrefixOf n) = true
    · have h12 := hgood
      simp only [Bool.and_eq_true, decide_eq_true_eq] at h12
      obtain ⟨h1, h2⟩ := h12
      have hskip : (decide (n.length ≤ base.length) || !(base.isPrefixOf n)) = false := by
        simp [h2, Nat.not_le.mpr h1]
      have hstep : keywordsStep cl base params acc n =
          (acc.1 ++ (rows n).map (fun p => fromMilvusVectorEmbedding p.1.id p.1 1 .keywords),
           acc.2 ++ [.textSearch n params.topK params.query expr]) := by
        unfold keywordsStep
        rw [hskip]
        simp only [Bool.false_eq_true, if_false]
        rw [hbase]
        dsimp only
        rw [hsearch n]
      rw [hstep, ih]
      simp [List.filter_cons, hgood, List.append_assoc]
    · have hg : (decide (base.length < n.length) && base.isPrefixOf n) = false := by
        revert hgood
        cases decide (base.length < n.length) && base.isPrefixOf n <;> simp
      have hskip : (decide (n.length ≤ base.length) || !(base.isPrefixOf n)) = true := by
        by_cases hp : base.isPrefixOf n = true
        · have hlt : ¬ base.length < n.length := fun hx => hgood (by simp [hx, hp])
          simp [Nat.le_of_not_lt hlt]
        · simp only [Bool.not_eq_true] at hp
          simp [hp]
      have hstep : keywordsStep cl base params acc n = acc := by
        unfold keywordsStep
        rw [hskip]
        rfl
      rw [hstep, ih]
      simp [List.filter_cons, hg]


theorem take_trunc {α : Type} (L : List α) (k : Nat) :
    (if L.length > k then L.take k else L) = L.take k := by
  by_cases h : L.length > k
  · rw [if_pos h]
  · rw [if_neg h]
    exact (List.take_of_length_le (Nat.le_of_not_lt h)).symm

/-- A sample stored row returned by the text-search oracle. -/
def keywordRow : MilvusVectorEmbedding :=
  { id := "r1", content := "c", sourceID := "s", sourceType := 1,
    chunkID := "ch", knowledgeID := "k", knowledgeBaseID := "kb",
    tagID := "", embedding := [1], isEnabled := true }

/-- Keyword-retrieval parameters with empty filter lists. -/
def kwParams : RetrieveParams :=
  { retrieverType := .keywords
    query := "q"
    embedding := []
    topK := 5
    threshold := 0
    knowledgeBaseIDs := []
    knowledgeIDs := []
    tagIDs := []
    excludeKnowledgeIDs := []
    excludeChunkIDs := [] }

/-- Counterexample to claim C5: a collection named exactly like the base name
starts with the base name, yet `KeywordsRetrieve` skips it — no text search
is issued against it and the result is empty, even though a search there
would return a row. -/
theorem keywordsRetrieve_skips_exact_base_name :
    strHasPrefix "wk" "wk" = true ∧
    KeywordsRetrieve
      { happyClient with
        listCollections := .ok ["wk"]
        textSearch := fun _ _ _ _ _ => .ok [(keywordRow, 2)] }
      "wk" kwParams =
      (.ok [{ results := []
              retrieverEngineType := .milvus
              retrieverType := .keywords
              error := none }],
        [.listCollections]) :=
  ⟨rfl, rfl⟩

/-- Claim C5 (amended): `KeywordsRetrieve` searches exactly the collections
whose names strictly extend the base name — longer than the base name and
starting with it, so the collection named exactly like the base is skipped —
in enumeration order; each search uses the same base-filter expression;
every match is tagged keyword-matched with the constant score 1; the
per-collection match lists are concatenated in enumeration order and
truncated to the first top-K entries with no cross-collection score
normalization. -/
theorem keywordsRetrieve_characterization (cl : MilvusClient) (base : String)
    (params : RetrieveParams) (cols : List String) (expr : String)
    (pm : List (String × FilterValue))
    (rows : String → List (MilvusVectorEmbedding × Rat))
    (hlist : cl.listCollections = .ok cols)
    (hbase : getBaseFilterForQuery params = .ok (expr, pm))
    (hsearch : ∀ n, cl.textSearch n params.topK params.query expr pm = .ok (rows n)) :
    KeywordsRetrieve cl base params =
      (.ok (buildRetrieveResult
        (((cols.filter (fun n => decide (base.length < n.length) &&
            base.isPrefixOf n)).flatMap
          (fun n => (rows n).map (fun p =>
            fromMilvusVectorEmbedding p.1.id p.1 1 .keywords))).take params.topK)
        .keywords),
       .listCollections ::
        (cols.filter (fun n => decide (base.length < n.length) &&
            base.isPrefixOf n)).map
          (fun n => .textSearch n params.topK params.query expr)) := by
  unfold KeywordsRetrieve
  rw [hlist]
  dsimp only
  rw [keywordsStep_foldl cl base params expr pm rows hbase hsearch cols
    ([], [.listCollections])]
  dsimp only
  simp only [List.nil_append]
  rw [take_trunc]
  rfl

/-- Witness for C5: one collection strictly extending the base and a client
whose text search returns one row; the characterization yields that row with
score 1 and one text-search call after the listing. -/
theorem keywordsRetrieve_characterization_witness :
    KeywordsRetrieve
      { happyClient with
        listCollections := .ok ["wk_3"]
        textSearch := fun _ _ _ _ _ => .ok [(keywordRow, 2)] }
      "wk" kwParams =
      (.ok (buildRetrieveResult
        (((["wk_3"].filter (fun n => decide (("wk" : String).length < n.length) &&
            ("wk" : String).isPrefixOf n)).flatMap
          (fun n => ([(keywordRow, (2 : Rat))]).map (fun p =>
            fromMilvusVectorEmbedding p.1.id p.1 1 .keywords))).take 5)
        .keywords),
       .listCollections ::
        (["wk_3"].filter (fun n => decide (("wk" : String).length < n.length) &&
            ("wk" : String).isPrefixOf n)).map
          (fun n => .textSearch n 5 "q" "")) :=
  keywordsRetrieve_characterization
    { happyClient with
      listCollections := .ok ["wk_3"]
      textSearch := fun _ _ _ _ _ => .ok [(keywordRow, 2)] }
    "wk" kwParams ["wk_3"] "" [] (fun _ => [(keywordRow, 2)]) rfl rfl (fun _ => rfl)


/-- The cache after a successful `ensureCollection` on dimension `d`. -/
def stepCache (cache : List Nat) (d : Nat) : List Nat :=
  if cache.contains d then cache else d :: cache

/-- The store calls one dimension group causes: the ensure calls, then — once
the collection was ensured — its one batched upsert. -/
def groupAttemptTrace (cl : MilvusClient) (uuid : Nat → String) (base : String)
    (ap : Option (List (String × List Rat))) (cache : List Nat) (uctr : Nat)
    (g : Nat × List IndexInfo) : List StoreCall :=
  match ensureCollection cl base cache g.1 with
  | (.error _, _, tr1) => tr1
  | (.ok (), _, tr1) =>
      tr1 ++ [.upsert (getCollectionName base g.1) (buildRows uuid ap g.2 uctr)]

/-- The store calls of a run of the per-group loop, the cache and the
identifier counter evolving group by group. -/
def loopTrace (cl : MilvusClient) (uuid : Nat → String) (base : String)
    (ap : Option (List (String × List Rat))) :
    List (Nat × List IndexInfo) → List Nat → Nat → List StoreCall
  | [], _, _ => []
  | g :: rest, cache, uctr =>
      groupAttemptTrace cl uuid base ap cache uctr g ++
        loopTrace cl uuid base ap rest (stepCache cache g.1) (uctr + g.2.length)

theorem ensure_ok_cache (cl : MilvusClient) (base : String) (cache : List Nat)
    (d : Nat) (h : (ensureCollection cl base cache d).1 = .ok ()) :
    (ensureCollection cl base cache d).2.1 = stepCache cache d := by
  unfold ensureCollection ensureLoad at h ⊢
  dsimp only at h ⊢
  by_cases hc : cache.contains d = true
  · rw [if_pos hc] at h ⊢
    rw [stepCache, if_pos hc]
  · rw [if_neg hc] at h ⊢
    rw [stepCache, if_neg hc]
    revert h
    cases cl.hasCollection (getCollectionName base d) with
    | error e => intro h; exact Except.noConfusion h
    | ok b =>
      cases b with
      | true =>
        cases cl.loadCollection (getCollectionName base d) with
        | error e => intro h; exact Except.noConfusion h
        | ok u =>
          cases u
          cases cl.awaitLoad (getCollectionName base d) with
          | error e => intro h; exact Except.noConfusion h
          | ok u2 => cases u2; intro h; rfl
      | false =>
        cases cl.createCollection (getCollectionName base d) with
        | error e => intro h; exact Except.noConfusion h
        | ok u =>
          cases u
          cases cl.loadCollection (getCollectionName base d) with
          | error e => intro h; exact Except.noConfusion h
          | ok u2 =>
            cases u2
            cases cl.awaitLoad (getCollectionName base d) with
            | error e => intro h; exact Except.noConfusion h
            | ok u3 => cases u3; intro h; rfl

/-- The result and the trace of `ensureCollection` depend on the cache only
through membership of the requested dimension. -/
theorem ensure_congr (cl : MilvusClient) (base : String) (cache cache' : List Nat)
    (d : Nat) (h : cache.contains d = cache'.contains d) :
    (ensureCollection cl base cache d).1 = (ensureCollection cl base cache' d).1 ∧
    (ensureCollection cl base cache d).2.2 = (ensureCollection cl base cache' d).2.2 := by
  unfold ensureCollection ensureLoad
  dsimp only
  rw [h]
  by_cases hc : cache'.contains d = true
  · rw [if_pos hc, if_pos hc]
    exact ⟨rfl, rfl⟩
  · rw [if_neg hc, if_neg hc]
    cases cl.hasCollection (getCollectionName base d) with
    | error e => exact ⟨rfl, rfl⟩
    | ok b =>
      cases b with
      | true =>
        cases cl.loadCollection (getCollectionName base d) with
        | error e => exact ⟨rfl, rfl⟩
        | ok u =>
          cases u
          cases cl.awaitLoad (getCollectionName base d) with
          | error e => exact ⟨rfl, rfl⟩
          | ok u2 => cases u2; exact ⟨rfl, rfl⟩
      | false =>
        cases cl.createCollection (getCollectionName base d) with
        | error e => exact ⟨rfl, rfl⟩
        | ok u =>
          cases u
          cases cl.loadCollection (getCollectionName base d) with
          | error e => exact ⟨rfl, rfl⟩
          | ok u2 =>
            cases u2
            cases cl.awaitLoad (getCollectionName base d) with
            | error e => exact ⟨rfl, rfl⟩
            | ok u3 => cases u3; exact ⟨rfl, rfl⟩

theorem stepCache_contains_ne (cache : List Nat) (d d' : Nat) (h : d' ≠ d) :
    (stepCache cache d).contains d' = cache.contains d' := by
  unfold stepCache
  by_cases hc : cache.contains d = true
  · rw [if_pos hc]
  · rw [if_neg hc]
    simp [List.contains_cons, h]

theorem addGroup_fst (d : Nat) (e : IndexInfo) :
    ∀ acc : List (Nat × List IndexInfo),
    (addGroup acc d e).map Prod.fst =
      if (acc.map Prod.fst).contains d then acc.map Prod.fst
      else acc.map Prod.fst ++ [d] := by
  intro acc
  induction acc with
  | nil => rfl
  | cons p rest ih =>
    obtain ⟨d0, es⟩ := p
    rw [addGroup]
    by_cases hd : d0 = d
    · subst hd
      rw [if_pos rfl]
      simp [List.contains_cons]
    · rw [if_neg hd]
      rw [List.map_cons, List.map_cons, ih]
      have hbeq : (d == d0) = false := by
        simp [Ne.symm hd]
      rw [List.contains_cons, hbeq, Bool.false_or]
      by_cases hcon : ((rest.map Prod.fst).contains d) = true
      · rw [if_pos hcon, if_pos hcon]
      · rw [if_neg hcon, if_neg hcon]
        rfl

theorem addGroup_fst_nodup (d : Nat) (e : IndexInfo)
    (acc : List (Nat × List IndexInfo)) (h : (acc.map Prod.fst).Nodup) :
    ((addGroup acc d e).map Prod.fst).Nodup := by
  rw [addGroup_fst]
  by_cases hcon : ((acc.map Prod.fst).contains d) = true
  · rw [if_pos hcon]
    exact h
  · rw [if_neg hcon]
    have hnm : d ∉ acc.map Prod.fst := by
      intro hx
      exact hcon (List.elem_iff.mpr hx)
    rw [List.nodup_append]
    exact ⟨h, List.nodup_singleton d, by
      intro x hx hx2
      rw [List.mem_singleton.mp hx2] at hx
      exact hnm hx⟩

theorem groupByDimension_fst_nodup (ap : Option (List (String × List Rat))) :
    ∀ (l : List IndexInfo) (acc : List (Nat × List IndexInfo)),
    (acc.map Prod.fst).Nodup →
    ((l.foldl (fun acc e =>
      let db := toMilvusVectorEmbedding e ap
      if db.embedding.length = 0 then acc
      else addGroup acc db.embedding.length e) acc).map Prod.fst).Nodup := by
  intro l
  induction l with
  | nil => intro acc h; exact h
  | cons e t ih =>
    intro acc h
    rw [List.foldl_cons]
    dsimp only
    by_cases he : (toMilvusVectorEmbedding e ap).embedding.length = 0
    · rw [if_pos he]
      exact ih acc h
    · rw [if_neg he]
      exact ih _ (addGroup_fst_nodup _ e acc h)

theorem groups_fst_nodup (l : List IndexInfo) (ap : Option (List (String × List Rat))) :
    ((groupByDimension l ap).map Prod.fst).Nodup := by
  unfold groupByDimension
  exact groupByDimension_fst_nodup ap l [] List.nodup_nil

theorem gbd_step_filter (ap : Option (List (String × List Rat))) :
    ∀ (l : List IndexInfo) (acc : List (Nat × List IndexInfo)),
    l.foldl (fun acc e =>
      let db := toMilvusVectorEmbedding e ap
      if db.embedding.length = 0 then acc
      else addGroup acc db.embedding.length e) acc =
    (l.filter (fun e =>
      decide (0 < (toMilvusVectorEmbedding e ap).embedding.length))).foldl
      (fun acc e =>
        let db := toMilvusVectorEmbedding e ap
        if db.embedding.length = 0 then acc
        else addGroup acc db.embedding.length e) acc := by
  intro l
  induction l with
  | nil => intro acc; rfl
  | cons e t ih =>
    intro acc
    rw [List.foldl_cons, List.filter_cons]
    dsimp only
    by_cases he : (toMilvusVectorEmbedding e ap).embedding.length = 0
    · rw [if_pos he, if_neg (by simp [he])]
      exact ih acc
    · rw [if_neg he, if_pos (by simp [Nat.pos_of_ne_zero he])]
      rw [List.foldl_cons]
      rw [if_neg he]
      exact ih (addGroup acc (toMilvusVectorEmbedding e ap).embedding.length e)

theorem groupByDimension_filter (l : List IndexInfo)
    (ap : Option (List (String × List Rat))) :
    groupByDimension l ap = groupByDimension (l.filter (fun e =>
      decide (0 < (toMilvusVectorEmbedding e ap).embedding.length))) ap := by
  unfold groupByDimension
  exact gbd_step_filter ap l []

theorem batchSave_filter_eq (cl : MilvusClient) (uuid : Nat → String) (base : String)
    (l : List IndexInfo) (ap : Option (List (String × List Rat)))
    (cache : List Nat) (uctr : Nat) :
    BatchSave cl uuid base l ap cache uctr =
      BatchSave cl uuid base (l.filter (fun e =>
        decide (0 < (toMilvusVectorEmbedding e ap).embedding.length))) ap cache uctr := by
  unfold BatchSave
  dsimp only
  by_cases hl : l.length = 0
  · rw [List.length_eq_zero] at hl
    subst hl
    rfl
  · rw [if_neg hl]
    rw [← groupByDimension_filter]
    by_cases hf : (l.filter (fun e =>
        decide (0 < (toMilvusVectorEmbedding e ap).embedding.length))).length = 0
    · rw [if_pos hf]
      have hg : groupByDimension l ap = [] := by
        rw [groupByDimension_filter]
        rw [List.length_eq_zero] at hf
        rw [hf]
        rfl
      rw [hg]
      rfl
    · rw [if_neg hf]

theorem buildRows_length (uuid : Nat → String)
    (ap : Option (List (String × List Rat))) :
    ∀ (es : List IndexInfo) (k : Nat), (buildRows uuid ap es k).length = es.length := by
  intro es
  induction es with
  | nil => intro k; rfl
  | cons e t ih => intro k; rw [buildRows]; simp [ih]

theorem buildRows_ids (uuid : Nat → String)
    (ap : Option (List (String × List Rat))) :
    ∀ (es : List IndexInfo) (k : Nat),
    (buildRows uuid ap es k).map MilvusVectorEmbedding.id =
      (List.range es.length).map (fun i => uuid (k + i)) := by
  intro es
  induction es with
  | nil => intro k; rfl
  | cons e t ih =>
    intro k
    rw [buildRows, List.map_cons, ih, List.length_cons, List.range_succ_eq_map,
      List.map_cons, List.map_map]
    rw [List.cons_eq_cons]
    constructor
    · simp
    · apply List.map_congr_left
      intro i hi
      congr 1
      omega

theorem batchSaveLoop_upsert_shape (cl : MilvusClient) (uuid : Nat → String)
    (base : String) (ap : Option (List (String × List Rat))) :
    ∀ (groups : List (Nat × List IndexInfo)) (cache : List Nat) (uctr : Nat)
      (name : String) (rows : List MilvusVectorEmbedding),
    StoreCall.upsert name rows ∈
      (batchSaveLoop cl uuid base ap groups cache uctr).2.2.2 →
    ∃ (es : List IndexInfo) (k : Nat), rows = buildRows uuid ap es k := by
  intro groups
  induction groups with
  | nil => intro cache uctr name rows hmem; simp [batchSaveLoop] at hmem
  | cons g rest ih =>
    intro cache uctr name rows hmem
    obtain ⟨dimension, embeddings⟩ := g
    rw [batchSaveLoop] at hmem
    rcases hens : ensureCollection cl base cache dimension with ⟨r1, cache1, tr1⟩
    rw [hens] at hmem
    cases r1 with
    | error e =>
      dsimp only at hmem
      have := ensure_no_upsert cl base cache dimension name rows
      rw [hens] at this
      exact absurd hmem this
    | ok u =>
      cases u
      dsimp only at hmem
      cases hup : cl.upsert (getCollectionName base dimension) with
      | error e =>
        rw [hup] at hmem
        dsimp only at hmem
        rcases List.mem_append.mp hmem with hm | hm
        · have := ensure_no_upsert cl base cache dimension name rows
          rw [hens] at this
          exact absurd hm this
        · refine ⟨embeddings, uctr, ?_⟩
          have hsing := List.mem_singleton.mp hm
          simp only [StoreCall.upsert.injEq] at hsing
          exact hsing.2
      | ok u2 =>
        cases u2
        rw [hup] at hmem
        dsimp only at hmem
        rcases hrec : batchSaveLoop cl uuid base ap rest cache1
            (uctr + embeddings.length) with ⟨r2, cache2, uctr2, tr2⟩
        rw [hrec] at hmem
        dsimp only at hmem
        rcases List.mem_append.mp hmem with hm | hm
        · rcases List.mem_append.mp hm with hm2 | hm2
          · have := ensure_no_upsert cl base cache dimension name rows
            rw [hens] at this
            exact absurd hm2 this
          · refine ⟨embeddings, uctr, ?_⟩
            have hsing := List.mem_singleton.mp hm2
            simp only [StoreCall.upsert.injEq] at hsing
            exact hsing.2
        · have := ih cache1 (uctr + embeddings.length) name rows
          rw [hrec] at this
          exact this hm

theorem batchSaveLoop_ok_iff (cl : MilvusClient) (uuid : Nat → String)
    (base : String) (ap : Option (List (String × List Rat))) :
    ∀ (groups : List (Nat × List IndexInfo)) (cache : List Nat) (uctr : Nat),
    (groups.map Prod.fst).Nodup →
    ((batchSaveLoop cl uuid base ap groups cache uctr).1 = .ok () ↔
      ∀ g ∈ groups, (ensureCollection cl base cache g.1).1 = .ok () ∧
        cl.upsert (getCollectionName base g.1) = .ok ()) := by
  intro groups
  induction groups with
  | nil =>
    intro cache uctr hnd
    simp [batchSaveLoop]
  | cons g rest ih =>
    intro cache uctr hnd
    obtain ⟨d, es⟩ := g
    rw [batchSaveLoop]
    rcases hens : ensureCollection cl base cache d with ⟨r1, cache1, tr1⟩
    cases r1 with
    | error e =>
      dsimp only
      constructor
      · intro hx
        exact Except.noConfusion hx
      · intro hall
        have hh := (hall (d, es) (List.mem_cons_self _ _)).1
        rw [hens] at hh
        exact Except.noConfusion hh
    | ok u =>
      cases u
      dsimp only
      cases hup : cl.upsert (getCollectionName base d) with
      | error e =>
        dsimp only
        constructor
        · intro hx
          exact Except.noConfusion hx
        · intro hall
          have hh := (hall (d, es) (List.mem_cons_self _ _)).2
          rw [hup] at hh
          exact Except.noConfusion hh
      | ok u2 =>
        cases u2
        dsimp only
        rcases hrec : batchSaveLoop cl uuid base ap rest cache1 (uctr + es.length)
          with ⟨r2, cache2, uctr2, tr2⟩
        dsimp only
        have hcache : cache1 = stepCache cache d := by
          have hoc : (ensureCollection cl base cache d).1 = .ok () := by
            rw [hens]
          have hh := ensure_ok_cache cl base cache d hoc
          rw [hens] at hh
          exact hh
        rw [List.map_cons] at hnd
        have hd0nm := (List.nodup_cons.mp hnd).1
        have hnd' := (List.nodup_cons.mp hnd).2
        have hiff := ih cache1 (uctr + es.length) hnd'
        rw [hrec] at hiff
        dsimp only at hiff
        have htrans : ∀ g' ∈ rest, (ensureCollection cl base cache1 g'.1).1 =
            (ensureCollection cl base cache g'.1).1 := by
          intro g' hg'
          have hne : g'.1 ≠ d := by
            intro hx
            apply hd0nm
            have hm : g'.1 ∈ List.map Prod.fst rest := List.mem_map_of_mem Prod.fst hg'
            rw [hx] at hm
            exact hm
          rw [hcache]
          exact (ensure_congr cl base (stepCache cache d) cache g'.1
            (stepCache_contains_ne cache d g'.1 hne)).1
        constructor
        · intro hr2 g' hg'
          rcases List.mem_cons.mp hg' with rfl | hg2
          · exact ⟨by rw [hens], hup⟩
          · have h2 := hiff.mp hr2 g' hg2
            exact ⟨htrans g' hg2 ▸ h2.1, h2.2⟩
        · intro hall
          apply hiff.mpr
          intro g' hg'
          have h2 := hall g' (List.mem_cons_of_mem _ hg')
          exact ⟨(htrans g' hg').symm ▸ h2.1, h2.2⟩

theorem batchSaveLoop_trace_fail (cl : MilvusClient) (uuid : Nat → String)
    (base : String) (ap : Option (List (String × List Rat))) :
    ∀ (done : List (Nat × List IndexInfo)) (g : Nat × List IndexInfo)
      (rest : List (Nat × List IndexInfo)) (cache : List Nat) (uctr : Nat),
    (((done ++ g :: rest).map Prod.fst)).Nodup →
    (∀ g' ∈ done, (ensureCollection cl base cache g'.1).1 = .ok () ∧
      cl.upsert (getCollectionName base g'.1) = .ok ()) →
    ¬ ((ensureCollection cl base cache g.1).1 = .ok () ∧
      cl.upsert (getCollectionName base g.1) = .ok ()) →
    ∃ err c2 u2, batchSaveLoop cl uuid base ap (done ++ g :: rest) cache uctr =
      (.error err, c2, u2, loopTrace cl uuid base ap (done ++ [g]) cache uctr) := by
  intro done
  induction done with
  | nil =>
    intro g rest cache uctr hnd hdone hfail
    obtain ⟨d, es⟩ := g
    simp only [List.nil_append]
    rw [batchSaveLoop]
    rcases hens : ensureCollection cl base cache d with ⟨r1, cache1, tr1⟩
    cases r1 with
    | error e =>
      dsimp only
      refine ⟨e, cache1, uctr, ?_⟩
      have hgat : groupAttemptTrace cl uuid base ap cache uctr (d, es) = tr1 := by
        unfold groupAttemptTrace
        rw [hens]
      simp only [loopTrace, hgat, List.append_nil]
    | ok u =>
      cases u
      dsimp only
      have hoc : (ensureCollection cl base cache d).1 = .ok () := by
        rw [hens]
      cases hup : cl.upsert (getCollectionName base d) with
      | error e =>
        dsimp only
        refine ⟨"failed to batch save (dimension " ++ Nat.repr d ++ "): " ++ e,
          cache1, uctr + es.length, ?_⟩
        have hgat : groupAttemptTrace cl uuid base ap cache uctr (d, es) =
            tr1 ++ [.upsert (getCollectionName base d) (buildRows uuid ap es uctr)] := by
          unfold groupAttemptTrace
          rw [hens]
        simp only [loopTrace, hgat, List.append_nil]
      | ok u2 =>
        cases u2
        exact absurd ⟨hoc, hup⟩ hfail
  | cons g0 done' ih =>
    intro g rest cache uctr hnd hdone hfail
    obtain ⟨d0, es0⟩ := g0
    simp only [List.cons_append]
    rw [batchSaveLoop]
    have hg0 := hdone (d0, es0) (List.mem_cons_self _ _)
    rcases hens : ensureCollection cl base cache d0 with ⟨r1, cache1, tr1⟩
    have hA : (ensureCollection cl base cache d0).1 = .ok () := hg0.1
    rw [hens] at hA
    cases r1 with
    | error e => exact Except.noConfusion hA
    | ok u =>
      cases u
      dsimp only
      have hg0u : cl.upsert (getCollectionName base d0) = .ok () := hg0.2
      rw [hg0u]
      dsimp only
      have hcache : cache1 = stepCache cache d0 := by
        have hh := ensure_ok_cache cl base cache d0 hg0.1
        rw [hens] at hh
        exact hh
      simp only [List.cons_append, List.map_cons] at hnd
      have hd0nm := (List.nodup_cons.mp hnd).1
      have hnd' := (List.nodup_cons.mp hnd).2
      have hdone2 : ∀ g' ∈ done',
          (ensureCollection cl base (stepCache cache d0) g'.1).1 = .ok () ∧
          cl.upsert (getCollectionName base g'.1) = .ok () := by
        intro g' hg'
        have h2 := hdone g' (List.mem_cons_of_mem _ hg')
        have hne : g'.1 ≠ d0 := by
          intro hx
          apply hd0nm
          have hm : g'.1 ∈ List.map Prod.fst (done' ++ g :: rest) :=
            List.mem_map_of_mem Prod.fst (List.mem_append_left _ hg')
          rw [hx] at hm
          exact hm
        have hcg := (ensure_congr cl base (stepCache cache d0) cache g'.1
          (stepCache_contains_ne cache d0 g'.1 hne)).1
        exact ⟨hcg.symm ▸ h2.1, h2.2⟩
      have hfail2 : ¬ ((ensureCollection cl base (stepCache cache d0) g.1).1 = .ok () ∧
          cl.upsert (getCollectionName base g.1) = .ok ()) := by
        intro hx
        apply hfail
        have hne : g.1 ≠ d0 := by
          intro he
          apply hd0nm
          have hm : g.1 ∈ List.map Prod.fst (done' ++ g :: rest) :=
            List.mem_map_of_mem Prod.fst (List.mem_append_right _ (List.mem_cons_self _ _))
          rw [he] at hm
          exact hm
        have hcg := (ensure_congr cl base (stepCache cache d0) cache g.1
          (stepCache_contains_ne cache d0 g.1 hne)).1
        exact ⟨hcg ▸ hx.1, hx.2⟩
      obtain ⟨err, c2, u2, hrec⟩ := ih g rest (stepCache cache d0)
        (uctr + es0.length) hnd' hdone2 hfail2
      refine ⟨err, c2, u2, ?_⟩
      rw [hcache, hrec]
      dsimp only
      have hgat : groupAttemptTrace cl uuid base ap cache uctr (d0, es0) =
          tr1 ++ [.upsert (getCollectionName base d0) (buildRows uuid ap es0 uctr)] := by
        unfold groupAttemptTrace
        rw [hens]
      simp only [loopTrace, hgat, List.append_assoc]


/-- A sample input record for batch saving. -/
def batchIdx : IndexInfo :=
  { content := "c", sourceID := "s", sourceType := 1, chunkID := "ck",
    knowledgeID := "k", knowledgeBaseID := "kb", tagID := "t", embedding := [] }

/-- Claim C6: `BatchSave` skips every record whose converted embedding is
empty (the run equals the run on the batch restricted to the non-empty
ones); it succeeds exactly when, for every dimension group, ensuring the
group's collection and its one batched upsert succeed; a failing group makes
it return an error with a call trace that ends at that group — the remaining
groups cause no store calls (fail-fast across groups); and every upsert
carries rows whose identifiers are freshly generated at consecutive counter
values and pairwise distinct. -/
theorem batchSave_spec (cl : MilvusClient) (uuid : Nat → String) (base : String)
    (l : List IndexInfo) (ap : Option (List (String × List Rat)))
    (cache : List Nat) (uctr : Nat) (hinj : Function.Injective uuid) :
    BatchSave cl uuid base l ap cache uctr =
      BatchSave cl uuid base (l.filter (fun e =>
        decide (0 < (toMilvusVectorEmbedding e ap).embedding.length))) ap cache uctr ∧
    ((BatchSave cl uuid base l ap cache uctr).1 = .ok () ↔
      ∀ g ∈ groupByDimension l ap,
        (ensureCollection cl base cache g.1).1 = .ok () ∧
        cl.upsert (getCollectionName base g.1) = .ok ()) ∧
    (∀ (done : List (Nat × List IndexInfo)) (g : Nat × List IndexInfo)
       (rest : List (Nat × List IndexInfo)),
      groupByDimension l ap = done ++ g :: rest →
      (∀ g' ∈ done, (ensureCollection cl base cache g'.1).1 = .ok () ∧
        cl.upsert (getCollectionName base g'.1) = .ok ()) →
      ¬ ((ensureCollection cl base cache g.1).1 = .ok () ∧
        cl.upsert (getCollectionName base g.1) = .ok ()) →
      ∃ err, (BatchSave cl uuid base l ap cache uctr).1 = .error err ∧
        (BatchSave cl uuid base l ap cache uctr).2.2.2 =
          loopTrace cl uuid base ap (done ++ [g]) cache uctr) ∧
    (∀ (name : String) (rows : List MilvusVectorEmbedding),
      StoreCall.upsert name rows ∈ (BatchSave cl uuid base l ap cache uctr).2.2.2 →
      ∃ k, rows.map MilvusVectorEmbedding.id =
          (List.range rows.length).map (fun i => uuid (k + i)) ∧
        (rows.map MilvusVectorEmbedding.id).Nodup) := by
  refine ⟨batchSave_filter_eq cl uuid base l ap cache uctr, ?_, ?_, ?_⟩
  · unfold BatchSave
    dsimp only
    by_cases hl : l.length = 0
    · rw [if_pos hl]
      rw [List.length_eq_zero] at hl
      subst hl
      constructor
      · intro _ g hg
        exact absurd hg (List.not_mem_nil g)
      · intro _
        rfl
    · rw [if_neg hl]
      by_cases hg : (groupByDimension l ap).length = 0
      · rw [if_pos hg]
        rw [List.length_eq_zero] at hg
        rw [hg]
        constructor
        · intro _ g hgm
          exact absurd hgm (List.not_mem_nil g)
        · intro _
          rfl
      · rw [if_neg hg]
        exact batchSaveLoop_ok_iff cl uuid base ap (groupByDimension l ap) cache uctr
          (groups_fst_nodup l ap)
  · intro done g rest hsplit hdone hfail
    have hgne : groupByDimension l ap ≠ [] := by
      rw [hsplit]
      intro hx
      cases done with
      | nil => exact List.noConfusion hx
      | cons a t => exact List.noConfusion hx
    have hlne : ¬ l.length = 0 := by
      intro hx
      rw [List.length_eq_zero] at hx
      subst hx
      exact hgne rfl
    have hglen : ¬ (groupByDimension l ap).length = 0 := by
      intro hx
      rw [List.length_eq_zero] at hx
      exact hgne hx
    have hbs : BatchSave cl uuid base l ap cache uctr =
        batchSaveLoop cl uuid base ap (groupByDimension l ap) cache uctr := by
      unfold BatchSave
      dsimp only
      rw [if_neg hlne, if_neg hglen]
    obtain ⟨err, c2, u2, hloop⟩ := batchSaveLoop_trace_fail cl uuid base ap done g rest
      cache uctr (by rw [← hsplit]; exact groups_fst_nodup l ap) hdone hfail
    rw [hbs, hsplit, hloop]
    exact ⟨err, rfl, rfl⟩
  · intro name rows hmem
    have hshape : ∃ es k, rows = buildRows uuid ap es k := by
      unfold BatchSave at hmem
      dsimp only at hmem
      by_cases hl : l.length = 0
      · rw [if_pos hl] at hmem
        exact absurd hmem (List.not_mem_nil _)
      · rw [if_neg hl] at hmem
        by_cases hg : (groupByDimension l ap).length = 0
        · rw [if_pos hg] at hmem
          exact absurd hmem (List.not_mem_nil _)
        · rw [if_neg hg] at hmem
          exact batchSaveLoop_upsert_shape cl uuid base ap _ cache uctr name rows hmem
    obtain ⟨es, k, hrows⟩ := hshape
    refine ⟨k, ?_, ?_⟩
    · rw [hrows, buildRows_ids, buildRows_length]
    · rw [hrows, buildRows_ids]
      exact List.Nodup.map (fun a b hx => by
        have hab := hinj hx
        omega) (List.nodup_range _)

/-- Witness for C6: a happy client, the decimal numeral as the identifier
generator, and one record with a two-dimensional embedding; the batch save
succeeds. -/
theorem batchSave_spec_witness :
    Function.Injective Nat.repr ∧
    (BatchSave happyClient Nat.repr "wk" [batchIdx] (some [("s", [1, 2])]) [] 0).1 =
      .ok () := by
  refine ⟨repr_injective, ?_⟩
  apply (batchSave_spec happyClient Nat.repr "wk" [batchIdx] (some [("s", [1, 2])])
    [] 0 repr_injective).2.1.mpr
  intro g hg
  have hmem : g ∈ [((2 : Nat), [batchIdx])] := hg
  rw [List.mem_singleton.mp hmem]
  exact ⟨rfl, rfl⟩


/-- The store calls `ensureCollection` may issue. -/
def isEnsureCall : StoreCall → Bool
  | .hasCollection _ => true
  | .createCollection _ => true
  | .loadCollection _ => true
  | .awaitLoad _ => true
  | _ => false

/-- The store calls the copy loop may issue. -/
def isCopyCall : StoreCall → Bool
  | .query _ _ => true
  | .upsert _ _ => true
  | _ => false

def isQueryCall : StoreCall → Bool
  | .query _ _ => true
  | _ => false

/-- The rows written by the upserts of a call trace, in order. -/
def upsertedRows : List StoreCall → List MilvusVectorEmbedding
  | [] => []
  | .upsert _ rows :: t => rows ++ upsertedRows t
  | _ :: t => upsertedRows t

/-- The number of paginated reads in a call trace. -/
def queryCount (tr : List StoreCall) : Nat := (tr.filter isQueryCall).length

theorem remapRows_skip (uuid : Nat → String) (cm km : List (String × String))
    (tkb : String) (r : MilvusVectorEmbedding) (rest : List MilvusVectorEmbedding)
    (u : Nat) (h : cm.lookup r.chunkID = none ∨ km.lookup r.knowledgeID = none) :
    remapRows uuid cm km tkb (r :: rest) u = remapRows uuid cm km tkb rest u := by
  rw [remapRows]
  rcases h with h | h
  · rw [h]
  · cases hc : cm.lookup r.chunkID with
    | none => rfl
    | some tc =>
      rw [h]

theorem remapRows_emit (uuid : Nat → String) (cm km : List (String × String))
    (tkb : String) (r : MilvusVectorEmbedding) (rest : List MilvusVectorEmbedding)
    (u : Nat) (tc tk : String) (hc : cm.lookup r.chunkID = some tc)
    (hk : km.lookup r.knowledgeID = some tk) :
    remapRows uuid cm km tkb (r :: rest) u =
      ({ id := uuid (remapSourceID uuid r tc u).2
         content := r.content
         sourceID := (remapSourceID uuid r tc u).1
         sourceType := r.sourceType
         chunkID := tc
         knowledgeID := tk
         knowledgeBaseID := tkb
         tagID := r.tagID
         embedding := r.embedding
         isEnabled := r.isEnabled } ::
        (remapRows uuid cm km tkb rest ((remapSourceID uuid r tc u).2 + 1)).1,
       (remapRows uuid cm km tkb rest ((remapSourceID uuid r tc u).2 + 1)).2) := by
  rw [remapRows, hc, hk]

theorem remapRows_append (uuid : Nat → String) (cm km : List (String × String))
    (tkb : String) :
    ∀ (a b : List MilvusVectorEmbedding) (u : Nat),
    remapRows uuid cm km tkb (a ++ b) u =
      ((remapRows uuid cm km tkb a u).1 ++
        (remapRows uuid cm km tkb b (remapRows uuid cm km tkb a u).2).1,
       (remapRows uuid cm km tkb b (remapRows uuid cm km tkb a u).2).2) := by
  intro a
  induction a with
  | nil => intro b u; rfl
  | cons r a2 ih =>
    intro b u
    rw [List.cons_append]
    cases hc : cm.lookup r.chunkID with
    | none =>
      rw [remapRows_skip uuid cm km tkb r (a2 ++ b) u (Or.inl hc),
          remapRows_skip uuid cm km tkb r a2 u (Or.inl hc)]
      exact ih b u
    | some tc =>
      cases hk : km.lookup r.knowledgeID with
      | none =>
        rw [remapRows_skip uuid cm km tkb r (a2 ++ b) u (Or.inr hk),
            remapRows_skip uuid cm km tkb r a2 u (Or.inr hk)]
        exact ih b u
      | some tk =>
        rw [remapRows_emit uuid cm km tkb r (a2 ++ b) u tc tk hc hk,
            remapRows_emit uuid cm km tkb r a2 u tc tk hc hk]
        rw [ih b ((remapSourceID uuid r tc u).2 + 1)]
        rfl

theorem remapRows_kb (uuid : Nat → String) (cm km : List (String × String))
    (tkb : String) :
    ∀ (l : List MilvusVectorEmbedding) (u : Nat),
    ∀ r ∈ (remapRows uuid cm km tkb l u).1, r.knowledgeBaseID = tkb := by
  intro l
  induction l with
  | nil => intro u r hr; exact absurd hr (List.not_mem_nil r)
  | cons x l2 ih =>
    intro u r hr
    cases hc : cm.lookup x.chunkID with
    | none =>
      rw [remapRows_skip uuid cm km tkb x l2 u (Or.inl hc)] at hr
      exact ih u r hr
    | some tc =>
      cases hk : km.lookup x.knowledgeID with
      | none =>
        rw [remapRows_skip uuid cm km tkb x l2 u (Or.inr hk)] at hr
        exact ih u r hr
      | some tk =>
        rw [remapRows_emit uuid cm km tkb x l2 u tc tk hc hk] at hr
        dsimp only at hr
        rcases List.mem_cons.mp hr with rfl | hr2
        · rfl
        · exact ih _ r hr2

theorem upsertedRows_append : ∀ (a b : List StoreCall),
    upsertedRows (a ++ b) = upsertedRows a ++ upsertedRows b := by
  intro a
  induction a with
  | nil => intro b; rfl
  | cons c t ih =>
    intro b
    cases c with
    | upsert n rows => simp [upsertedRows, ih, List.append_assoc]
    | hasCollection n => simp [upsertedRows, ih]
    | createCollection n => simp [upsertedRows, ih]
    | loadCollection n => simp [upsertedRows, ih]
    | awaitLoad n => simp [upsertedRows, ih]
    | deleteByField n f ids => simp [upsertedRows, ih]
    | listCollections => simp [upsertedRows, ih]
    | vectorSearch a1 a2 a3 => simp [upsertedRows, ih]
    | textSearch a1 a2 a3 a4 => simp [upsertedRows, ih]
    | query n o => simp [upsertedRows, ih]

theorem upsertedRows_of_ensure_calls : ∀ (tr : List StoreCall),
    (∀ c ∈ tr, isEnsureCall c = true) → upsertedRows tr = [] := by
  intro tr
  induction tr with
  | nil => intro _; rfl
  | cons c t ih =>
    intro h
    have hc := h c (List.mem_cons_self _ _)
    have ht := ih (fun c2 hc2 => h c2 (List.mem_cons_of_mem _ hc2))
    cases c with
    | upsert n rows => exact absurd hc (by simp [isEnsureCall])
    | hasCollection n => simp [upsertedRows, ht]
    | createCollection n => simp [upsertedRows, ht]
    | loadCollection n => simp [upsertedRows, ht]
    | awaitLoad n => simp [upsertedRows, ht]
    | deleteByField n f ids => exact absurd hc (by simp [isEnsureCall])
    | listCollections => exact absurd hc (by simp [isEnsureCall])
    | vectorSearch a1 a2 a3 => exact absurd hc (by simp [isEnsureCall])
    | textSearch a1 a2 a3 a4 => exact absurd hc (by simp [isEnsureCall])
    | query n o => exact absurd hc (by simp [isEnsureCall])

theorem queryCount_of_ensure_calls (tr : List StoreCall)
    (h : ∀ c ∈ tr, isEnsureCall c = true) : queryCount tr = 0 := by
  unfold queryCount
  rw [List.length_eq_zero, List.filter_eq_nil_iff]
  intro c hc
  have hens := h c hc
  cases c with
  | query n o => exact absurd hens (by simp [isEnsureCall])
  | hasCollection n => simp [isQueryCall]
  | createCollection n => simp [isQueryCall]
  | loadCollection n => simp [isQueryCall]
  | awaitLoad n => simp [isQueryCall]
  | upsert n rows => simp [isQueryCall]
  | deleteByField n f ids => simp [isQueryCall]
  | listCollections => simp [isQueryCall]
  | vectorSearch a1 a2 a3 => simp [isQueryCall]
  | textSearch a1 a2 a3 a4 => simp [isQueryCall]

theorem ensure_calls (cl : MilvusClient) (base : String) (cache : List Nat)
    (d : Nat) : ∀ c ∈ (ensureCollection cl base cache d).2.2, isEnsureCall c = true := by
  unfold ensureCollection ensureLoad
  dsimp only
  by_cases hc : cache.contains d = true
  · rw [if_pos hc]
    intro c hc2
    exact absurd hc2 (List.not_mem_nil c)
  · rw [if_neg hc]
    cases cl.hasCollection (getCollectionName base d) with
    | error e =>
      intro c hc2
      rw [List.mem_singleton.mp hc2]
      rfl
    | ok b =>
      cases b with
      | true =>
        cases cl.loadCollection (getCollectionName base d) with
        | error e =>
          intro c hc2
          rcases List.mem_cons.mp hc2 with rfl | hc3
          · rfl
          · rw [List.mem_singleton.mp hc3]
            rfl
        | ok u =>
          cases u
          cases cl.awaitLoad (getCollectionName base d) with
          | error e =>
            intro c hc2
            rcases List.mem_cons.mp hc2 with rfl | hc3
            · rfl
            · rcases List.mem_cons.mp hc3 with rfl | hc4
              · rfl
              · rw [List.mem_singleton.mp hc4]
                rfl
          | ok u2 =>
            cases u2
            intro c hc2
            rcases List.mem_cons.mp hc2 with rfl | hc3
            · rfl
            · rcases List.mem_cons.mp hc3 with rfl | hc4
              · rfl
              · rw [List.mem_singleton.mp hc4]
                rfl
      | false =>
        cases cl.createCollection (getCollectionName base d) with
        | error e =>
          intro c hc2
          rcases List.mem_cons.mp hc2 with rfl | hc3
          · rfl
          · rw [List.mem_singleton.mp hc3]
            rfl
        | ok u =>
          cases u
          cases cl.loadCollection (getCollectionName base d) with
          | error e =>
            intro c hc2
            rcases List.mem_cons.mp hc2 with rfl | hc3
            · rfl
            · rcases List.mem_cons.mp hc3 with rfl | hc4
              · rfl
              · rw [List.mem_singleton.mp hc4]
                rfl
          | ok u2 =>
            cases u2
            cases cl.awaitLoad (getCollectionName base d) with
            | error e =>
              intro c hc2
              rcases List.mem_cons.mp hc2 with rfl | hc3
              · rfl
              · rcases List.mem_cons.mp hc3 with rfl | hc4
                · rfl
                · rcases List.mem_cons.mp hc4 with rfl | hc5
                  · rfl
                  · rw [List.mem_singleton.mp hc5]
                    rfl
            | ok u3 =>
              cases u3
              intro c hc2
              rcases List.mem_cons.mp hc2 with rfl | hc3
              · rfl
              · rcases List.mem_cons.mp hc3 with rfl | hc4
                · rfl
                · rcases List.mem_cons.mp hc4 with rfl | hc5
                  · rfl
                  · rw [List.mem_singleton.mp hc5]
                    rfl


/-- The copy pagination loop under a store whose upserts succeed: it returns
success, its final counter and its upserted rows are exactly those of
remapping the matched rows from the offset on, it issues one paginated read
per page (advancing by the fixed page size until a short page), and it
issues only reads and upserts, each upsert being a remap batch. -/
theorem copyLoop_spec (cl : MilvusClient) (uuid : Nat → String)
    (collectionName : String) (stored : List MilvusVectorEmbedding) (srcKB : String)
    (cm km : List (String × String)) (tkb : String)
    (hup : cl.upsert collectionName = .ok ()) :
    ∀ (n offset uctr : Nat),
    (stored.filter (fun r => r.knowledgeBaseID = srcKB)).length - offset ≤ n →
    ∃ tr,
      copyLoop cl uuid collectionName stored srcKB cm km tkb offset uctr =
        (.ok (),
         (remapRows uuid cm km tkb
           ((stored.filter (fun r => r.knowledgeBaseID = srcKB)).drop offset) uctr).2,
         tr) ∧
      upsertedRows tr = (remapRows uuid cm km tkb
        ((stored.filter (fun r => r.knowledgeBaseID = srcKB)).drop offset) uctr).1 ∧
      queryCount tr =
        ((stored.filter (fun r => r.knowledgeBaseID = srcKB)).drop offset).length / 64
          + 1 ∧
      (∀ c ∈ tr, isCopyCall c = true) ∧
      (∀ (name : String) (rows : List MilvusVectorEmbedding),
        StoreCall.upsert name rows ∈ tr →
        ∃ (l : List MilvusVectorEmbedding) (k : Nat),
          rows = (remapRows uuid cm km tkb l k).1) := by
  intro n
  induction n with
  | zero =>
    intro offset uctr hmeas
    have hlen : (stored.filter (fun r => r.knowledgeBaseID = srcKB)).length ≤ offset := by
      omega
    have hdrop := List.drop_eq_nil_of_le hlen
    have hpage : ((searchPage stored srcKB 64 offset).1).length = 0 := by
      show ((((stored.filter (fun r => r.knowledgeBaseID = srcKB)).drop
        offset).take 64)).length = 0
      rw [hdrop]
      rfl
    refine ⟨[.query collectionName offset], ?_, ?_, ?_, ?_, ?_⟩
    · rw [copyLoop.eq_def]
      dsimp only
      rw [if_pos hpage, hdrop]
      rfl
    · rw [hdrop]
      rfl
    · rw [hdrop]
      rfl
    · intro c hc
      rw [List.mem_singleton.mp hc]
      rfl
    · intro name rows hmem
      exact StoreCall.noConfusion (List.mem_singleton.mp hmem)
  | succ n ih =>
    intro offset uctr hmeas
    by_cases hpage : ((searchPage stored srcKB 64 offset).1).length = 0
    · have hdrop : (stored.filter (fun r => r.knowledgeBaseID = srcKB)).drop offset
          = [] := by
        have h1 : ((((stored.filter (fun r => r.knowledgeBaseID = srcKB)).drop
            offset).take 64)).length = 0 := hpage
        rw [List.length_take, List.length_drop] at h1
        exact List.drop_eq_nil_of_le (by omega)
      refine ⟨[.query collectionName offset], ?_, ?_, ?_, ?_, ?_⟩
      · rw [copyLoop.eq_def]
        dsimp only
        rw [if_pos hpage, hdrop]
        rfl
      · rw [hdrop]
        rfl
      · rw [hdrop]
        rfl
      · intro c hc
        rw [List.mem_singleton.mp hc]
        rfl
      · intro name rows hmem
        exact StoreCall.noConfusion (List.mem_singleton.mp hmem)
    · have hcnt : (searchPage stored srcKB 64 offset).2 =
          ((searchPage stored srcKB 64 offset).1).length := rfl
      have htake : (searchPage stored srcKB 64 offset).1 =
          ((stored.filter (fun r => r.knowledgeBaseID = srcKB)).drop offset).take 64 :=
        rfl
      by_cases hshort : (searchPage stored srcKB 64 offset).2 < 64
      · have hLlt : (((stored.filter (fun r => r.knowledgeBaseID = srcKB)).drop
            offset)).length < 64 := by
          have h1 := hshort
          rw [hcnt, htake, List.length_take] at h1
          omega
        have hpageall : (searchPage stored srcKB 64 offset).1 =
            (stored.filter (fun r => r.knowledgeBaseID = srcKB)).drop offset := by
          rw [htake]
          exact List.take_of_length_le (Nat.le_of_lt hLlt)
        by_cases hemit : 0 < ((remapRows uuid cm km tkb
            (searchPage stored srcKB 64 offset).1 uctr).1).length
        · refine ⟨[.query collectionName offset,
            .upsert collectionName (remapRows uuid cm km tkb
              (searchPage stored srcKB 64 offset).1 uctr).1], ?_, ?_, ?_, ?_, ?_⟩
          · rw [copyLoop.eq_def]
            dsimp only
            rw [if_neg hpage, if_pos hemit, hup]
            dsimp only
            rw [if_pos hshort, hpageall]
            rfl
          · have h2 : upsertedRows [StoreCall.query collectionName offset,
                .upsert collectionName (remapRows uuid cm km tkb
                  (searchPage stored srcKB 64 offset).1 uctr).1] =
                (remapRows uuid cm km tkb
                  (searchPage stored srcKB 64 offset).1 uctr).1 ++ [] := rfl
            rw [h2, List.append_nil, hpageall]
          · have hone : queryCount [StoreCall.query collectionName offset,
                .upsert collectionName (remapRows uuid cm km tkb
                  (searchPage stored srcKB 64 offset).1 uctr).1] = 1 := rfl
            rw [hone]
            omega
          · intro c hc
            rcases List.mem_cons.mp hc with rfl | hc2
            · rfl
            · rw [List.mem_singleton.mp hc2]
              rfl
          · intro name rows hmem
            rcases List.mem_cons.mp hmem with heq | hmem2
            · exact StoreCall.noConfusion heq
            · have heq := List.mem_singleton.mp hmem2
              simp only [StoreCall.upsert.injEq] at heq
              exact ⟨(searchPage stored srcKB 64 offset).1, uctr, heq.2⟩
        · refine ⟨[.query collectionName offset], ?_, ?_, ?_, ?_, ?_⟩
          · rw [copyLoop.eq_def]
            dsimp only
            rw [if_neg hpage, if_neg hemit, if_pos hshort, hpageall]
          · have hnil : (remapRows uuid cm km tkb ((stored.filter
                (fun r => r.knowledgeBaseID = srcKB)).drop offset) uctr).1 = [] := by
              rw [← hpageall]
              exact List.length_eq_zero.mp (by omega)
            rw [hnil]
            rfl
          · have hone : queryCount [StoreCall.query collectionName offset] = 1 := rfl
            rw [hone]
            omega
          · intro c hc
            rw [List.mem_singleton.mp hc]
            rfl
          · intro name rows hmem
            exact StoreCall.noConfusion (List.mem_singleton.mp hmem)
      · have hmin : (searchPage stored srcKB 64 offset).2 =
            min 64 ((stored.filter (fun r => r.knowledgeBaseID = srcKB)).length -
              offset) := by
          rw [hcnt, htake, List.length_take, List.length_drop]
        have hc64 : (searchPage stored srcKB 64 offset).2 = 64 := by omega
        have hLge : offset + 64 ≤
            (stored.filter (fun r => r.knowledgeBaseID = srcKB)).length := by omega
        have hmeas2 : (stored.filter (fun r => r.knowledgeBaseID = srcKB)).length -
            (offset + 64) ≤ n := by omega
        have hdd : ((stored.filter (fun r => r.knowledgeBaseID = srcKB)).drop
              offset).drop 64 =
            (stored.filter (fun r => r.knowledgeBaseID = srcKB)).drop (offset + 64) := by
          rw [List.drop_drop, Nat.add_comm]
        have hsplit : (stored.filter (fun r => r.knowledgeBaseID = srcKB)).drop offset =
            (searchPage stored srcKB 64 offset).1 ++
              (stored.filter (fun r => r.knowledgeBaseID = srcKB)).drop (offset + 64) := by
          rw [htake, ← hdd]
          exact (List.take_append_drop 64 _).symm
        obtain ⟨tr3, heq3, hups3, hqc3, hcalls3, hshape3⟩ := ih (offset + 64)
          (remapRows uuid cm km tkb (searchPage stored srcKB 64 offset).1 uctr).2 hmeas2
        have hremap : remapRows uuid cm km tkb ((stored.filter
              (fun r => r.knowledgeBaseID = srcKB)).drop offset) uctr =
            ((remapRows uuid cm km tkb (searchPage stored srcKB 64 offset).1 uctr).1 ++
              (remapRows uuid cm km tkb ((stored.filter
                (fun r => r.knowledgeBaseID = srcKB)).drop (offset + 64))
                (remapRows uuid cm km tkb
                  (searchPage stored srcKB 64 offset).1 uctr).2).1,
             (remapRows uuid cm km tkb ((stored.filter
                (fun r => r.knowledgeBaseID = srcKB)).drop (offset + 64))
                (remapRows uuid cm km tkb
                  (searchPage stored srcKB 64 offset).1 uctr).2).2) := by
          rw [hsplit, remapRows_append]
        by_cases hemit : 0 < ((remapRows uuid cm km tkb
            (searchPage stored srcKB 64 offset).1 uctr).1).length
        · refine ⟨.query collectionName offset ::
            .upsert collectionName (remapRows uuid cm km tkb
              (searchPage stored srcKB 64 offset).1 uctr).1 :: tr3, ?_, ?_, ?_, ?_, ?_⟩
          · rw [copyLoop.eq_def]
            dsimp only
            rw [if_neg hpage, if_pos hemit, hup]
            dsimp only
            rw [if_neg hshort, hc64, heq3]
            dsimp only
            rw [hremap]
            rfl
          · have h2 : upsertedRows (StoreCall.query collectionName offset ::
                .upsert collectionName (remapRows uuid cm km tkb
                  (searchPage stored srcKB 64 offset).1 uctr).1 :: tr3) =
                (remapRows uuid cm km tkb
                  (searchPage stored srcKB 64 offset).1 uctr).1 ++ upsertedRows tr3 :=
              rfl
            rw [h2, hups3, hremap]
          · have h3 : queryCount (StoreCall.query collectionName offset ::
                .upsert collectionName (remapRows uuid cm km tkb
                  (searchPage stored srcKB 64 offset).1 uctr).1 :: tr3) =
                queryCount tr3 + 1 := rfl
            rw [h3, hqc3, List.length_drop, List.length_drop]
            omega
          · intro c hc
            rcases List.mem_cons.mp hc with rfl | hc2
            · rfl
            · rcases List.mem_cons.mp hc2 with rfl | hc3
              · rfl
              · exact hcalls3 c hc3
          · intro name rows hmem
            rcases List.mem_cons.mp hmem with heq | hmem2
            · exact StoreCall.noConfusion heq
            · rcases List.mem_cons.mp hmem2 with heq | hmem3
              · simp only [StoreCall.upsert.injEq] at heq
                exact ⟨(searchPage stored srcKB 64 offset).1, uctr, heq.2⟩
              · exact hshape3 name rows hmem3
        · refine ⟨.query collectionName offset :: tr3, ?_, ?_, ?_, ?_, ?_⟩
          · rw [copyLoop.eq_def]
            dsimp only
            rw [if_neg hpage, if_neg hemit, if_neg hshort, hc64, heq3]
            dsimp only
            rw [hremap]
            rfl
          · have h2 : upsertedRows (StoreCall.query collectionName offset :: tr3) =
                upsertedRows tr3 := rfl
            have hnil : (remapRows uuid cm km tkb
                (searchPage stored srcKB 64 offset).1 uctr).1 = [] :=
              List.length_eq_zero.mp (by omega)
            rw [h2, hups3, hremap, hnil, List.nil_append]
          · have h3 : queryCount (StoreCall.query collectionName offset :: tr3) =
                queryCount tr3 + 1 := rfl
            rw [h3, hqc3, List.length_drop, List.length_drop]
            omega
          · intro c hc
            rcases List.mem_cons.mp hc with rfl | hc2
            · rfl
            · exact hcalls3 c hc2
          · intro name rows hmem
            rcases List.mem_cons.mp hmem with heq | hmem2
            · exact StoreCall.noConfusion heq
            · exact hshape3 name rows hmem2


/-- Claim C7: per scanned row, a missing chunk-id or knowledge-id mapping
skips the row; a mapped row is copied with a freshly minted record id, the
three-case source-id remap, the target knowledge-base id, and the content,
source type, tag, embedding and enabled flag unchanged; under a successful
store the whole run succeeds, writes exactly the remap of the matched rows,
pages through them 64 at a time until a short page, never deletes, and every
written row carries the target knowledge base. -/
theorem copyIndices_spec (cl : MilvusClient) (uuid : Nat → String) (base : String)
    (srcKB : String) (kbMap chunkMap : List (String × String)) (targetKB : String)
    (dimension : Nat) (stored : List MilvusVectorEmbedding) (cache : List Nat)
    (uctr : Nat)
    (hchunk : ¬ chunkMap.length = 0)
    (hens : (ensureCollection cl base cache dimension).1 = .ok ())
    (hup : cl.upsert (getCollectionName base dimension) = .ok ()) :
    (∀ (r : MilvusVectorEmbedding) (rest : List MilvusVectorEmbedding) (u : Nat),
      chunkMap.lookup r.chunkID = none ∨ kbMap.lookup r.knowledgeID = none →
      remapRows uuid chunkMap kbMap targetKB (r :: rest) u =
        remapRows uuid chunkMap kbMap targetKB rest u) ∧
    (∀ (r : MilvusVectorEmbedding) (rest : List MilvusVectorEmbedding) (u : Nat)
       (tc tk : String), chunkMap.lookup r.chunkID = some tc →
      kbMap.lookup r.knowledgeID = some tk →
      remapRows uuid chunkMap kbMap targetKB (r :: rest) u =
        ({ id := uuid (remapSourceID uuid r tc u).2
           content := r.content
           sourceID := (remapSourceID uuid r tc u).1
           sourceType := r.sourceType
           chunkID := tc
           knowledgeID := tk
           knowledgeBaseID := targetKB
           tagID := r.tagID
           embedding := r.embedding
           isEnabled := r.isEnabled } ::
          (remapRows uuid chunkMap kbMap targetKB rest
            ((remapSourceID uuid r tc u).2 + 1)).1,
         (remapRows uuid chunkMap kbMap targetKB rest
           ((remapSourceID uuid r tc u).2 + 1)).2)) ∧
    (∀ (r : MilvusVectorEmbedding) (tc : String) (u : Nat),
      (r.sourceID = r.chunkID → remapSourceID uuid r tc u = (tc, u)) ∧
      (¬ r.sourceID = r.chunkID →
        strHasPrefix (r.chunkID ++ "-") r.sourceID = true →
        remapSourceID uuid r tc u =
          (tc ++ "-" ++ strTrimPrefix r.sourceID (r.chunkID ++ "-"), u)) ∧
      (¬ r.sourceID = r.chunkID →
        strHasPrefix (r.chunkID ++ "-") r.sourceID = false →
        remapSourceID uuid r tc u = (uuid u, u + 1))) ∧
    (CopyIndices cl uuid base srcKB kbMap chunkMap targetKB dimension stored cache
      uctr).1 = .ok () ∧
    upsertedRows (CopyIndices cl uuid base srcKB kbMap chunkMap targetKB dimension
        stored cache uctr).2.2.2 =
      (remapRows uuid chunkMap kbMap targetKB
        (stored.filter (fun r => r.knowledgeBaseID = srcKB)) uctr).1 ∧
    queryCount (CopyIndices cl uuid base srcKB kbMap chunkMap targetKB dimension
        stored cache uctr).2.2.2 =
      (stored.filter (fun r => r.knowledgeBaseID = srcKB)).length / 64 + 1 ∧
    (∀ (name field : String) (ids : List String),
      StoreCall.deleteByField name field ids ∉
        (CopyIndices cl uuid base srcKB kbMap chunkMap targetKB dimension stored cache
          uctr).2.2.2) ∧
    (∀ (name : String) (rows : List MilvusVectorEmbedding),
      StoreCall.upsert name rows ∈
        (CopyIndices cl uuid base srcKB kbMap chunkMap targetKB dimension stored cache
          uctr).2.2.2 →
      ∀ r ∈ rows, r.knowledgeBaseID = targetKB) := by
  obtain ⟨tr2, heq2, hups2, hqc2, hcalls2, hshape2⟩ := copyLoop_spec cl uuid
    (getCollectionName base dimension) stored srcKB chunkMap kbMap targetKB hup
    ((stored.filter (fun r => r.knowledgeBaseID = srcKB)).length) 0 uctr (by omega)
  rcases hens2 : ensureCollection cl base cache dimension with ⟨r1, cache1, tr1⟩
  have hr1 : r1 = .ok () := by
    rw [hens2] at hens
    exact hens
  subst hr1
  have hensc : ∀ c ∈ tr1, isEnsureCall c = true := by
    have hh := ensure_calls cl base cache dimension
    rw [hens2] at hh
    exact hh
  have hCI : CopyIndices cl uuid base srcKB kbMap chunkMap targetKB dimension stored
      cache uctr =
      (.ok (), cache1,
       (remapRows uuid chunkMap kbMap targetKB
         ((stored.filter (fun r => r.knowledgeBaseID = srcKB)).drop 0) uctr).2,
       tr1 ++ tr2) := by
    unfold CopyIndices
    rw [if_neg hchunk]
    dsimp only
    rw [hens2]
    dsimp only
    rw [heq2]
  refine ⟨?_, ?_, ?_, ?_, ?_, ?_, ?_, ?_⟩
  · intro r rest u h
    exact remapRows_skip uuid chunkMap kbMap targetKB r rest u h
  · intro r rest u tc tk hc hk
    exact remapRows_emit uuid chunkMap kbMap targetKB r rest u tc tk hc hk
  · intro r tc u
    refine ⟨?_, ?_, ?_⟩
    · intro h1
      unfold remapSourceID
      rw [if_pos h1]
    · intro h1 h2
      unfold remapSourceID
      rw [if_neg h1, if_pos h2]
    · intro h1 h2
      unfold remapSourceID
      rw [if_neg h1, if_neg (by simp [h2])]
  · rw [hCI]
  · rw [hCI]
    dsimp only
    have htr1 : upsertedRows tr1 = [] := upsertedRows_of_ensure_calls tr1 hensc
    rw [upsertedRows_append, htr1, List.nil_append, hups2, List.drop_zero]
  · rw [hCI]
    dsimp only
    show ((tr1 ++ tr2).filter isQueryCall).length = _
    rw [List.filter_append, List.length_append]
    have h0 : (tr1.filter isQueryCall).length = 0 := queryCount_of_ensure_calls tr1 hensc
    have h1 : (tr2.filter isQueryCall).length =
        ((stored.filter (fun r => r.knowledgeBaseID = srcKB)).drop 0).length / 64 + 1 :=
      hqc2
    rw [h0, h1, List.drop_zero, Nat.zero_add]
  · intro name field ids hmem
    rw [hCI] at hmem
    dsimp only at hmem
    rcases List.mem_append.mp hmem with hm | hm
    · exact Bool.noConfusion (hensc _ hm)
    · exact Bool.noConfusion (hcalls2 _ hm)
  · intro name rows hmem r hr
    rw [hCI] at hmem
    dsimp only at hmem
    rcases List.mem_append.mp hmem with hm | hm
    · have hno := ensure_no_upsert cl base cache dimension name rows
      rw [hens2] at hno
      exact absurd hm hno
    · obtain ⟨l, k, hrows⟩ := hshape2 name rows hm
      rw [hrows] at hr
      exact remapRows_kb uuid chunkMap kbMap targetKB l k r hr

/-- A stored source row whose source id equals its chunk id. -/
def copySrcRow : MilvusVectorEmbedding :=
  { id := "old", content := "c", sourceID := "c1", sourceType := 1, chunkID := "c1",
    knowledgeID := "k1", knowledgeBaseID := "src", tagID := "", embedding := [1, 2],
    isEnabled := true }

/-- Witness for C7: a happy client, one matched row, singleton remap tables;
the copy succeeds. -/
theorem copyIndices_spec_witness :
    (CopyIndices happyClient Nat.repr "wk" "src" [("k1", "K1")] [("c1", "C1")] "tgt" 2
      [copySrcRow] [] 0).1 = .ok () :=
  (copyIndices_spec happyClient Nat.repr "wk" "src" [("k1", "K1")] [("c1", "C1")] "tgt"
    2 [copySrcRow] [] 0 (by decide) rfl rfl).2.2.2.1

end WeKnora
